import Mathlib

/-!
Verification model of the qop snapshot/patch tool (src/src/main.rs).

The model shallowly embeds the patch engine (`apply`, `reverse`), the diff
engine (`diff`), and the snapshot traversal (`init`/`process_files`) of the
Rust source.  File contents are Lean `String`s; Rust's `str::lines`,
`ends_with("\n")`, `join("\n")`, `starts_with`, `parse::<usize>` and
`usize::to_string` are each given an explicit executable model working on the
underlying character list.  `BTreeMap<String, _>` is modelled as an
association list kept sorted by the byte-lexicographic order that Rust uses
on `String` keys, built by repeated ordered insertion.
-/

namespace Qop

/-- Characters compared the way Rust compares bytes of (ASCII) strings:
by code point. -/
def charLt (a b : Char) : Bool := a.toNat < b.toNat

/-- Lexicographic order on character lists; models Rust's `Ord` for `String`
(byte-lexicographic; identical to code-point order on ASCII data). -/
def lexLt : List Char → List Char → Bool
  | _, [] => false
  | [], _ :: _ => true
  | a :: as, b :: bs => charLt a b || (a == b && lexLt as bs)

/-- Order on `String` used by the `BTreeMap<String, _>` model. -/
def strLt (a b : String) : Bool := lexLt a.toList b.toList

/-- Splits a character list at `'\n'` separators (the separators are dropped).
Always returns at least one (possibly empty) piece, like Rust's `split('\n')`. -/
def splitNl : List Char → List (List Char)
  | [] => [[]]
  | c :: rest =>
    if c = '\n' then [] :: splitNl rest
    else
      match splitNl rest with
      | [] => [[c]]
      | p :: ps => (c :: p) :: ps

/-- Drops the final piece when it is empty: Rust's `str::lines` yields no
trailing empty line for newline-terminated content. -/
def dropTrailEmpty : List (List Char) → List (List Char)
  | [] => []
  | [l] => if l = [] then [] else [l]
  | l :: l2 :: rest => l :: dropTrailEmpty (l2 :: rest)

/-- Strips one trailing `'\r'`, as Rust's `str::lines` does to support CRLF. -/
def stripCr (l : List Char) : List Char :=
  if l.getLast? = some '\r' then l.dropLast else l

/-- Model of Rust's `str::lines` on the character list. -/
def rustLinesL (cs : List Char) : List (List Char) :=
  (dropTrailEmpty (splitNl cs)).map stripCr

/-- Model of Rust's `str::lines` (src/src/main.rs lines 206, 300). -/
def rustLines (s : String) : List String :=
  (rustLinesL s.toList).map String.mk

/-- Model of Rust's `ends_with("\n")` (src/src/main.rs line 227). -/
def endsNl (s : String) : Bool := s.toList.getLast? == some '\n'

/-- Model of Rust's `starts_with(c)` for a single-character pattern
(src/src/main.rs lines 301, 303). -/
def strStarts (c : Char) (s : String) : Bool := s.toList.head? == some c

/-- Model of Rust's `&l[1..]` after a matched one-byte prefix
(src/src/main.rs lines 302, 304). -/
def strTail (s : String) : String := String.mk (s.toList.drop 1)

/-- Model of Rust's `Vec::join("\n")` (src/src/main.rs lines 232, 255). -/
def joinLines : List String → String
  | [] => ""
  | [l] => l
  | l :: l2 :: rest => l ++ "\n" ++ joinLines (l2 :: rest)

/-- Concatenation of a list of strings, modelling `Vec::concat`
(src/src/main.rs line 159 etc.). -/
def strConcat : List String → String
  | [] => ""
  | s :: rest => s ++ strConcat rest

/-- ASCII decimal digit test, as in `usize::from_str`. -/
def isDig (c : Char) : Bool := 48 ≤ c.toNat && c.toNat ≤ 57

/-- Numeric value of an all-digits character list. -/
def digsVal (cs : List Char) : Nat :=
  cs.foldl (fun a c => 10 * a + (c.toNat - 48)) 0

/-- Parses an unsigned decimal numeral: nonempty, all digits.  Models the
digit phase of Rust's `str::parse::<usize>` (src/src/main.rs lines 201, 247);
Lean's `Nat` drops the `usize` overflow bound, which no claim exercises. -/
def parseDigs (cs : List Char) : Option Nat :=
  if cs ≠ [] ∧ cs.all isDig then some (digsVal cs) else none

/-- Model of Rust's `str::parse::<usize>`: an optional leading `'+'`
followed by a nonempty digit string. -/
def parseUsize (s : String) : Option Nat :=
  if s.toList.head? = some '+' then parseDigs (s.toList.drop 1)
  else parseDigs s.toList

/-- Digit character for a value below 10. -/
def digChar (n : Nat) : Char := Char.ofNat (48 + n)

/-- Fueled little-endian-to-big-endian decimal printer. -/
def natReprGo : Nat → Nat → List Char
  | 0, _ => []
  | f + 1, n => if n < 10 then [digChar n] else natReprGo f (n / 10) ++ [digChar (n % 10)]

/-- Decimal digits of `n`, most significant first. -/
def natReprL (n : Nat) : List Char := natReprGo (n + 1) n

/-- Model of Rust's `usize::to_string` (src/src/main.rs line 256 and the
`to_string` on range starts in `diff`). -/
def natReprS (n : Nat) : String := String.mk (natReprL n)

/-- Ordered insertion into the sorted association list modelling
`BTreeMap<String, α>::insert`: replaces the value on an existing key. -/
def btreeInsert (k : String) (v : α) : List (String × α) → List (String × α)
  | [] => [(k, v)]
  | (k', v') :: rest =>
    if strLt k k' then (k, v) :: (k', v') :: rest
    else if k = k' then (k, v) :: rest
    else (k', v') :: btreeInsert k v rest

/-- Builds the `BTreeMap` model from entries in encounter order (models both
deserializing a patch file and the insertions performed by `diff`). -/
def btreeOfList (l : List (String × α)) : List (String × α) :=
  l.foldl (fun m kv => btreeInsert kv.1 kv.2 m) []

/-- Decoded form of one patch section (struct `Action`,
src/src/main.rs lines 316-320; `at` is a Lean keyword, hence `att`). -/
structure Action where
  att : Nat
  remove : List String
  insert : List String
deriving Repr, DecidableEq

/-- `PatchSection::to_action_at` (src/src/main.rs lines 296-314): splits the
section payload into `-`-prefixed removals and `+`-prefixed insertions;
unprefixed lines are dropped. -/
def toActionAt (content : String) (line : Nat) : Action :=
  { att := line
    remove := ((rustLines content).filter (strStarts '-')).map strTail
    insert := ((rustLines content).filter (strStarts '+')).map strTail }

/-- Copies exactly `k` lines off the front of `rest`; `none` when fewer than
`k` remain.  Models the `while line_index < act.at` copy loop of `apply`
(src/src/main.rs lines 211-215): the Rust loop advances `line_index` once per
copied line and calls `.next().unwrap()`, which panics (`none`) when the
original-content iterator is exhausted before the anchor is reached. -/
def copyN : Nat → List String → Option (List String × List String)
  | 0, rest => some ([], rest)
  | _ + 1, [] => none
  | k + 1, x :: xs =>
    match copyN k xs with
    | none => none
    | some (c, r) => some (x :: c, r)

/-- The action loop of `apply` (src/src/main.rs lines 209-226): for each
action, copy original lines up to the anchor, emit the insertions, silently
drop up to `remove.len()` original lines, and advance `line_index` by
`remove.len()`; after the last action the remaining original lines are
copied (the base case returns them).  `none` models the `unwrap` panic.
This version idealizes the `act.at as i32` cast of src/src/main.rs line 211
away, comparing the anchor as an unbounded natural: it agrees with the
program exactly for anchors below `2 ^ 31` (`applyActsI32_agree`), while
`applyActsI32` below models the cast itself. -/
def applyActs : Nat → List String → List Action → Option (List String)
  | _, rest, [] => some rest
  | li, rest, act :: acts =>
    (copyN (act.att - li) rest).bind fun cr =>
      (applyActs (max li act.att + act.remove.length)
          (cr.2.drop act.remove.length) acts).map fun tail =>
        cr.1 ++ act.insert ++ tail

/-- Parses the (sorted) section list of one patch file into actions in
iteration order (src/src/main.rs lines 199-203); `none` models the `?` on a
non-numeric anchor key. -/
def actionsOf (sections : List (String × String)) : Option (List Action) :=
  (btreeOfList sections).mapM fun kv => (parseUsize kv.1).map (toActionAt kv.2)

/-- Applies one patch-file entry to the original lines. -/
def applySections (orig : List String) (sections : List (String × String)) :
    Option (List String) :=
  (actionsOf sections).bind (applyActs 0 orig)

/-- Reassembles the output content (src/src/main.rs lines 227-232): a final
empty line marks a trailing newline iff the original content ended with one,
then the lines are joined with `"\n"`. -/
def finalize (content : String) (ls : List String) : String :=
  joinLines (ls ++ if endsNl content then [""] else [])

/-- The per-file body of `apply` (src/src/main.rs lines 198-233) on one
file's original content and its patch sections (as deserialized key/payload
pairs); `none` models an abort (anchor parse error or the copy-loop panic). -/
def applyContent (content : String) (sections : List (String × String)) :
    Option String :=
  (applySections (rustLines content) sections).map (finalize content)

/-- Rust's `usize`-to-`i32` cast (src/src/main.rs line 211, `act.at as i32`):
truncation to the low 32 bits read as a two's-complement signed value, so
anchors in `[2^31, 2^32)` come out negative. -/
def asI32 (n : Nat) : Int :=
  if n % 2 ^ 32 < 2 ^ 31 then ((n % 2 ^ 32 : Nat) : Int)
  else ((n % 2 ^ 32 : Nat) : Int) - 2 ^ 32

/-- The action loop of `apply` with the `act.at as i32` cast of
src/src/main.rs line 211 modelled faithfully: the copy loop runs while
`line_index < act.at as i32`, so an anchor whose cast is non-positive makes
the copy loop run zero times instead of panicking.  `line_index` is the
`i32` value (its own additions are modelled without 32-bit overflow, exact
for patches whose copy targets and removal counts keep it below `2 ^ 31`,
as any real patch file does). -/
def applyActsI32 : Int → List String → List Action → Option (List String)
  | _, rest, [] => some rest
  | li, rest, act :: acts =>
    (copyN (asI32 act.att - li).toNat rest).bind fun cr =>
      (applyActsI32 (max li (asI32 act.att) + act.remove.length)
          (cr.2.drop act.remove.length) acts).map fun tail =>
        cr.1 ++ act.insert ++ tail

/-- One section of `reverse` (src/src/main.rs lines 244-256): decode at the
parsed key, re-prefix insertions with `-` and removals with `+`, join with
newlines, and re-key at `act.at.to_string()`. -/
def reverseSection (k : String) (c : String) : Option (String × String) :=
  (parseUsize k).map fun n =>
    let act := toActionAt c n
    (natReprS act.att,
      joinLines (act.insert.map (fun l => "-" ++ l) ++
                 act.remove.map (fun l => "+" ++ l)))

/-- The per-file body of `reverse` (src/src/main.rs lines 242-259): walk the
sorted sections, reverse each, and collect them into a fresh `BTreeMap`. -/
def reverseSections (sections : List (String × String)) :
    Option (List (String × String)) :=
  (btreeOfList sections).foldlM
    (fun m kv => (reverseSection kv.1 kv.2).map fun r => btreeInsert r.1 r.2 m)
    []

/-- One step of a line-level edit script. -/
inductive Step where
  | keep (l : String) : Step
  | del (l : String) : Step
  | ins (l : String) : Step
deriving Repr, DecidableEq

/-- Number of non-keep steps: the cost minimized by the diff. -/
def scriptCost (s : List Step) : Nat :=
  (s.filter fun st => match st with | .keep _ => false | _ => true).length

/-- Old-content lines of a script (keeps and deletions, in order). -/
def stepsOld : List Step → List String
  | [] => []
  | .keep l :: rest => l :: stepsOld rest
  | .del l :: rest => l :: stepsOld rest
  | .ins _ :: rest => stepsOld rest

/-- New-content lines of a script (keeps and insertions, in order). -/
def stepsNew : List Step → List String
  | [] => []
  | .keep l :: rest => l :: stepsNew rest
  | .del _ :: rest => stepsNew rest
  | .ins l :: rest => l :: stepsNew rest

/-- Modelled from the spec: the line-oriented text-diff algorithm of the
external `similar` crate (`TextDiff::from_lines`, src/src/main.rs lines
134-138), whose source is not part of this repository.  Per spec §4.3 it
partitions old and new content into equal/insert/delete/replace operations
over contiguous line ranges; this model computes a minimal edit script by
the standard recursion (deleting before inserting on ties), fueled so that
it is structural.  The fuel `scriptFuel (o.length + n.length) o n` always
suffices. -/
def scriptFuel : Nat → List String → List String → List Step
  | _, [], n => n.map Step.ins
  | _, o@(_ :: _), [] => o.map Step.del
  | 0, _ :: _, _ :: _ => []
  | f + 1, a :: as, b :: bs =>
    if a = b then Step.keep a :: scriptFuel f as bs
    else
      let s1 := scriptFuel f as (b :: bs)
      let s2 := scriptFuel f (a :: as) bs
      if scriptCost s2 < scriptCost s1 then Step.ins b :: s2 else Step.del a :: s1

/-- The minimal line edit script from old to new content. -/
def script (o n : List String) : List Step :=
  scriptFuel (o.length + n.length) o n

/-- The tag of a grouped diff operation (`similar::DiffTag`). -/
inductive DiffTag where
  | equal | delete | insert | replace
deriving Repr, DecidableEq

/-- A grouped diff operation (`similar::DiffOp` as consumed by `diff`):
its tag, the start of its old- and new-content line ranges, and the lines of
those ranges (what `diff.iter_changes(diffop)` yields). -/
structure DiffOp where
  tag : DiffTag
  oldStart : Nat
  newStart : Nat
  oldSeg : List String
  newSeg : List String
deriving Repr, DecidableEq

/-- Emits the grouped operation for a pending run of deletions/insertions,
tagged delete/insert/replace by which sides are present; nothing when the
run is empty. -/
def flushRun (oPos nPos : Nat) (dels inss : List String) : List DiffOp :=
  if dels = [] ∧ inss = [] then []
  else
    [{ tag := if inss = [] then DiffTag.delete
              else if dels = [] then DiffTag.insert else DiffTag.replace
       oldStart := oPos, newStart := nPos, oldSeg := dels, newSeg := inss }]

/-- Modelled from the spec: grouping of the edit script into the maximal
non-equal operations that `similar`'s `ops()` reports, tracking the old- and
new-content start positions of each run.  Equal runs separate operations and
produce no section (the `Equal` arm of `diff` is empty,
src/src/main.rs line 154), so only non-equal operations are emitted. -/
def groupOps (oPos nPos : Nat) (dels inss : List String) : List Step → List DiffOp
  | [] => flushRun oPos nPos dels inss
  | .keep _ :: rest =>
    flushRun oPos nPos dels inss ++
      groupOps (oPos + dels.length + 1) (nPos + inss.length + 1) [] [] rest
  | .del l :: rest => groupOps oPos nPos (dels ++ [l]) inss rest
  | .ins l :: rest => groupOps oPos nPos dels (inss ++ [l]) rest

/-- The non-equal diff operations between two line lists. -/
def diffOps (o n : List String) : List DiffOp :=
  groupOps 0 0 [] [] (script o n)

/-- The payload of one patch section (src/src/main.rs lines 140-151):
every old-range line prefixed with `-`, then every new-range line prefixed
with `+`, each carrying its newline, concatenated. -/
def payload (op : DiffOp) : String :=
  strConcat (op.oldSeg.map (fun l => "-" ++ l ++ "\n") ++
             op.newSeg.map (fun l => "+" ++ l ++ "\n"))

/-- The section written for one diff operation (src/src/main.rs lines
153-179): keyed by `old_range().start` for delete and replace operations,
by `new_range().start` for insert operations; equal operations produce
nothing. -/
def sectionEntry (op : DiffOp) : Option (String × String) :=
  match op.tag with
  | DiffTag.equal => none
  | DiffTag.delete => some (natReprS op.oldStart, payload op)
  | DiffTag.insert => some (natReprS op.newStart, payload op)
  | DiffTag.replace => some (natReprS op.oldStart, payload op)

/-- The section map `diff` builds for one changed file, at the line level:
the sections of all non-equal operations inserted in order into the
`BTreeMap` model. -/
def diffLines (o n : List String) : List (String × String) :=
  (diffOps o n).foldl
    (fun m op =>
      match sectionEntry op with
      | none => m
      | some kv => btreeInsert kv.1 kv.2 m)
    []

/-- The section map `diff` builds for one changed file, from old (stored)
and new (working) content strings. -/
def diffContent (oldC newC : String) : List (String × String) :=
  diffLines (rustLines oldC) (rustLines newC)

/-- `patch.files.entry(path).or_insert_with(BTreeMap::new)` followed by
inserting each section (src/src/main.rs lines 156-177), on the association
list modelling `HashMap<String, BTreeMap<String, PatchSection>>`. -/
def filesEntryInsert (files : List (String × List (String × String)))
    (path : String) (secs : List (String × String)) :
    List (String × List (String × String)) :=
  match files with
  | [] => [(path, secs.foldl (fun m kv => btreeInsert kv.1 kv.2 m) [])]
  | (p, s) :: rest =>
    if p = path then (p, secs.foldl (fun m kv => btreeInsert kv.1 kv.2 m) s) :: rest
    else (p, s) :: filesEntryInsert rest path secs

/-- The per-index loop of `diff` (src/src/main.rs lines 122-181), with the
content hash, the working-tree reader and the store reader as parameters:
for each index entry, hash the working content; when it equals the stored
hash the file is skipped before the stored copy is read; otherwise the
stored copy is read (recorded in the second component) and the file's
sections are diffed — `reverse` swaps the diff inputs.  A file whose diff
yields no section gets no entry (`patch.files.entry` is only touched inside
the non-equal arms). -/
def diffStep (hash : String → String) (wc store : String → String) (rev : Bool)
    (acc : List (String × List (String × String)) × List String)
    (pe : String × String) :
    List (String × List (String × String)) × List String :=
  let wcc := wc pe.1
  if hash wcc = pe.2 then acc
  else
    let sc := store pe.1
    let secs := if rev then diffContent wcc sc else diffContent sc wcc
    (if secs.isEmpty then acc.1 else filesEntryInsert acc.1 pe.1 secs,
     acc.2 ++ [pe.1])

/-- `diff` over the whole index: fold `diffStep` over the index entries,
accumulating the patch's file map and the list of store reads. -/
def diffIndex (hash : String → String) (wc store : String → String)
    (rev : Bool) (index : List (String × String)) :
    List (String × List (String × String)) × List String :=
  index.foldl (diffStep hash wc store rev) ([], [])

/-- Where an operation reads its patch from. -/
inductive PatchSource where
  | stdin : PatchSource
  | file (name : String) : PatchSource
deriving Repr, DecidableEq

/-- Patch-source resolution in `apply` (src/src/main.rs lines 188-196):
the argument `"-"` selects standard input, anything else names a file. -/
def applyPatchSource (file : String) : PatchSource :=
  if file = "-" then PatchSource.stdin else PatchSource.file file

/-- Patch-source resolution in `reverse` (src/src/main.rs line 239): the
argument is always opened as a file path. -/
def reversePatchSource (file : String) : PatchSource :=
  PatchSource.file file

/-- A directory listing for the snapshot traversal: a chain of entries, each
a file (name, content) or a subdirectory (name, optional readable ignore
manifest, children chain).  `manifest = none` models *any* failed
`fs::read_to_string(".qopfile")` — absence as well as e.g. a permission
error, both caught by the `Err(_)` arm (src/src/main.rs line 77). -/
inductive Fs where
  | nil : Fs
  | fileE (name content : String) (rest : Fs) : Fs
  | dirE (name : String) (manifest : Option String) (children : Fs) (rest : Fs) : Fs
deriving Repr, DecidableEq

/-- Rust's `Path::starts_with` on component lists: the pattern is a
component-wise prefix of the path (src/src/main.rs line 84). -/
def pathStarts : List String → List String → Bool
  | _, [] => true
  | [], _ :: _ => false
  | a :: as, b :: bs => a == b && pathStarts as bs

/-- The ignore test of `process_files` (src/src/main.rs lines 82-88): the
entry is skipped when any pattern on any level of the ignore stack is a
path prefix of it. -/
def ignored (stack : List (List (List String))) (p : List String) : Bool :=
  stack.any fun lvl => lvl.any fun pat => pathStarts p pat

/-- Reading a directory's `.qopfile` (src/src/main.rs lines 72-78), with the
toml parse of `QopFile` as the parameter `parse` (the `toml` crate is
external; a parsed ignore entry is modelled as its path components):
a failed read yields the empty pattern list, a successful read that fails to
parse propagates the error (`?`), and parsed patterns are joined onto the
directory's own path. -/
def readPats (parse : String → Option (List (List String)))
    (dpath : List String) : Option String → Except Unit (List (List String))
  | none => Except.ok []
  | some s =>
    match parse s with
    | none => Except.error ()
    | some ps => Except.ok (ps.map fun q => dpath ++ q)

/-- The traversal loop of `process_files` (src/src/main.rs lines 68-104) over
a directory chain: each entry is checked against the whole ignore stack; a
surviving file contributes `path -> hash` to the index (first component) and
a copy into the store (second component, src/src/main.rs lines 96-98); a
surviving directory reads its own manifest, pushes its joined patterns, and
recurses.  `Except.error` models the fatal manifest parse failure. -/
def processFs (hash : String → String)
    (parse : String → Option (List (List String)))
    (path : List String) (stack : List (List (List String))) :
    Fs → Except Unit (List (List String × String) × List (List String))
  | .nil => Except.ok ([], [])
  | .fileE name c rest =>
    (processFs hash parse path stack rest).map fun res =>
      if ignored stack (path ++ [name]) then res
      else ((path ++ [name], hash c) :: res.1, (path ++ [name]) :: res.2)
  | .dirE name m children rest =>
    if ignored stack (path ++ [name]) then processFs hash parse path stack rest
    else
      (readPats parse (path ++ [name]) m).bind fun pats =>
        (processFs hash parse (path ++ [name]) (stack ++ [pats]) children).bind
          fun resc =>
            (processFs hash parse path stack rest).map fun resr =>
              (resc.1 ++ resr.1, resc.2 ++ resr.2)

/-- The root call of the traversal (src/src/main.rs line 112): the root
directory's own manifest is read first and its patterns form the initial
ignore stack. -/
def processRoot (hash : String → String)
    (parse : String → Option (List (List String)))
    (rootManifest : Option String) (entries : Fs) :
    Except Unit (List (List String × String) × List (List String)) :=
  (readPats parse [] rootManifest).bind fun pats =>
    processFs hash parse [] [pats] entries

/-- The entry names of a directory chain. -/
def chainNames : Fs → List String
  | .nil => []
  | .fileE name _ rest => name :: chainNames rest
  | .dirE name _ _ rest => name :: chainNames rest

/-- Well-formedness of the modelled tree: sibling names are distinct on
every level, as they are on arrival from a real directory walk. -/
def wfFs : Fs → Bool
  | .nil => true
  | .fileE name _ rest => !(chainNames rest).contains name && wfFs rest
  | .dirE name _ children rest =>
    !(chainNames rest).contains name && wfFs children && wfFs rest

/-- `ManifestAt f relA s`: somewhere in the chain `f`, the directory at
relative component path `relA` carries a readable ignore manifest with
content `s`. -/
inductive ManifestAt : Fs → List String → String → Prop where
  | head (name s : String) (children rest : Fs) :
      ManifestAt (.dirE name (some s) children rest) [name] s
  | inside {children : Fs} {relA : List String} {s : String}
      (name : String) (m : Option String) (rest : Fs) :
      ManifestAt children relA s → ManifestAt (.dirE name m children rest) (name :: relA) s
  | skipFile {rest : Fs} {relA : List String} {s : String} (name c : String) :
      ManifestAt rest relA s → ManifestAt (.fileE name c rest) relA s
  | skipDir {rest : Fs} {relA : List String} {s : String}
      (name : String) (m : Option String) (children : Fs) :
      ManifestAt rest relA s → ManifestAt (.dirE name m children rest) relA s

/-! ### Basic lemmas about the string primitives -/

theorem mk_toList (s : String) : String.mk s.toList = s := by
  cases s; rfl

theorem toList_mk (l : List Char) : (String.mk l).toList = l := rfl

theorem toList_append (a b : String) : (a ++ b).toList = a.toList ++ b.toList :=
  String.data_append a b

theorem charEq_of_toNat_eq {a b : Char} (h : a.toNat = b.toNat) : a = b := by
  have ha := Char.ofNat_toNat a
  rw [h, Char.ofNat_toNat] at ha
  exact ha.symm

theorem strEq_of_toList_eq {a b : String} (h : a.toList = b.toList) : a = b := by
  have := congrArg String.mk h
  rwa [mk_toList, mk_toList] at this

/-! ### Decimal printing and parsing invert each other -/

theorem digChar_isDig {d : Nat} (h : d < 10) : isDig (digChar d) = true := by
  interval_cases d <;> decide

theorem digChar_toNat {d : Nat} (h : d < 10) : (digChar d).toNat = 48 + d := by
  interval_cases d <;> decide

theorem digsVal_append_digit (xs : List Char) (c : Char) :
    digsVal (xs ++ [c]) = 10 * digsVal xs + (c.toNat - 48) := by
  simp [digsVal, List.foldl_append]

theorem natReprGo_spec : ∀ f n, n < f →
    natReprGo f n ≠ [] ∧ (natReprGo f n).all isDig = true ∧
      digsVal (natReprGo f n) = n := by
  intro f
  induction f with
  | zero => intro n hn; omega
  | succ f ih =>
    intro n hn
    by_cases h10 : n < 10
    · refine ⟨by simp [natReprGo, h10], ?_, ?_⟩
      · simp [natReprGo, h10, List.all_cons, digChar_isDig h10]
      · simp [natReprGo, h10, digsVal, digChar_toNat h10]
    · have hdiv : n / 10 < f := by
        have h1 : n / 10 < n := Nat.div_lt_self (by omega) (by omega)
        omega
      obtain ⟨hne, hall, hval⟩ := ih (n / 10) hdiv
      have hmod : n % 10 < 10 := Nat.mod_lt _ (by omega)
      refine ⟨?_, ?_, ?_⟩
      · simp [natReprGo, h10]
      · simp [natReprGo, h10, List.all_append, hall, digChar_isDig hmod]
      · simp only [natReprGo, if_neg h10, digsVal_append_digit, hval,
          digChar_toNat hmod]
        omega

theorem parseDigs_natReprL (n : Nat) : parseDigs (natReprL n) = some n := by
  obtain ⟨hne, hall, hval⟩ := natReprGo_spec (n + 1) n (Nat.lt_succ_self n)
  simp [parseDigs, natReprL, hne, hall, hval]

theorem natReprL_head_digit (n : Nat) :
    ∀ c ∈ (natReprL n).head?, isDig c = true := by
  obtain ⟨hne, hall, -⟩ := natReprGo_spec (n + 1) n (Nat.lt_succ_self n)
  have hne' : natReprL n ≠ [] := hne
  have hall' : (natReprL n).all isDig = true := hall
  intro c hc
  cases h : natReprL n with
  | nil => exact absurd h hne'
  | cons a l =>
    rw [h] at hc
    simp only [List.head?_cons, Option.mem_def, Option.some.injEq] at hc
    rw [h] at hall'
    simp only [List.all_cons, Bool.and_eq_true] at hall'
    exact hc ▸ hall'.1

theorem parseUsize_natReprS (n : Nat) : parseUsize (natReprS n) = some n := by
  have hhead : (natReprS n).toList.head? ≠ some '+' := by
    intro h
    have : (natReprS n).toList = natReprL n := rfl
    rw [this] at h
    have := natReprL_head_digit n '+' (by rw [h]; rfl)
    simp [isDig] at this
  rw [parseUsize, if_neg hhead]
  exact parseDigs_natReprL n

/-! ### The string order used by the BTreeMap model -/

theorem lexLt_trans : ∀ {a b c : List Char},
    lexLt a b = true → lexLt b c = true → lexLt a c = true := by
  intro a
  induction a with
  | nil =>
    intro b c _ hbc
    cases c with
    | nil => cases b <;> simp_all [lexLt]
    | cons z zs => simp [lexLt]
  | cons x xs ih =>
    intro b c hab hbc
    cases b with
    | nil => simp [lexLt] at hab
    | cons y ys =>
      cases c with
      | nil => simp [lexLt] at hbc
      | cons z zs =>
        simp only [lexLt, charLt, Bool.or_eq_true, Bool.and_eq_true,
          beq_iff_eq, decide_eq_true_eq] at hab hbc ⊢
        rcases hab with h1 | ⟨he1, h1⟩ <;> rcases hbc with h2 | ⟨he2, h2⟩
        · exact Or.inl (Nat.lt_trans h1 h2)
        · exact Or.inl (he2 ▸ h1)
        · exact Or.inl (he1 ▸ h2)
        · exact Or.inr ⟨he1.trans he2, ih h1 h2⟩

theorem lexLt_eq_of_not (a : List Char) : ∀ b,
    lexLt a b = false → lexLt b a = false → a = b := by
  induction a with
  | nil =>
    intro b hab _
    cases b with
    | nil => rfl
    | cons y ys => simp [lexLt] at hab
  | cons x xs ih =>
    intro b hab hba
    cases b with
    | nil => simp [lexLt] at hba
    | cons y ys =>
      simp only [lexLt, charLt, Bool.or_eq_false_iff, Bool.and_eq_false_iff,
        beq_eq_false_iff_ne, ne_eq, decide_eq_false_iff_not, Nat.not_lt] at hab hba
      have hxy : x = y := charEq_of_toNat_eq (Nat.le_antisymm hba.1 hab.1)
      rcases hab.2 with h | h
      · exact absurd hxy h
      rcases hba.2 with h' | h'
      · exact absurd hxy.symm h'
      · rw [hxy, ih ys h h']

theorem strLt_trans {a b c : String} (h1 : strLt a b = true)
    (h2 : strLt b c = true) : strLt a c = true :=
  lexLt_trans h1 h2

theorem strLt_eq_of_not {a b : String} (h1 : strLt a b = false)
    (h2 : strLt b a = false) : a = b :=
  strEq_of_toList_eq (lexLt_eq_of_not _ _ h1 h2)

/-! ### The BTreeMap model keeps its keys sorted -/

/-- The strict key order on map entries. -/
def entryLt (a b : String × α) : Prop := strLt a.1 b.1 = true

theorem btreeInsert_mem {α : Type} {x : String × α} {k : String} {v : α} :
    ∀ {m : List (String × α)}, x ∈ btreeInsert k v m → x = (k, v) ∨ x ∈ m := by
  intro m
  induction m with
  | nil => intro h; simpa [btreeInsert] using h
  | cons kv rest ih =>
    intro h
    rw [btreeInsert] at h
    by_cases h1 : strLt k kv.1 = true
    · rw [if_pos h1, List.mem_cons] at h
      rcases h with h | h
      · exact Or.inl h
      · exact Or.inr h
    · rw [if_neg h1] at h
      by_cases h2 : k = kv.1
      · rw [if_pos h2, List.mem_cons] at h
        rcases h with h | h
        · exact Or.inl h
        · exact Or.inr (List.mem_cons_of_mem _ h)
      · rw [if_neg h2, List.mem_cons] at h
        rcases h with h | h
        · exact Or.inr (h ▸ List.mem_cons_self _ _)
        · rcases ih h with h' | h'
          · exact Or.inl h'
          · exact Or.inr (List.mem_cons_of_mem _ h')

theorem btreeInsert_pairwise {α : Type} {k : String} {v : α}
    {m : List (String × α)} (h : List.Pairwise entryLt m) :
    List.Pairwise entryLt (btreeInsert k v m) := by
  induction m with
  | nil => simp [btreeInsert, List.pairwise_singleton]
  | cons kv rest ih =>
    rw [List.pairwise_cons] at h
    rw [btreeInsert]
    by_cases h1 : strLt k kv.1 = true
    · rw [if_pos h1]
      refine List.pairwise_cons.mpr ⟨?_, List.pairwise_cons.mpr h⟩
      intro x hx
      rw [List.mem_cons] at hx
      rcases hx with h' | h'
      · exact h' ▸ h1
      · exact strLt_trans h1 (h.1 x h')
    · rw [if_neg h1]
      by_cases h2 : k = kv.1
      · rw [if_pos h2]
        refine List.pairwise_cons.mpr ⟨?_, h.2⟩
        intro x hx
        exact h2 ▸ h.1 x hx
      · rw [if_neg h2]
        refine List.pairwise_cons.mpr ⟨?_, ih h.2⟩
        intro x hx
        rcases btreeInsert_mem hx with h' | h'
        · subst h'
          by_cases h3 : strLt kv.1 k = true
          · exact h3
          · exact absurd (strLt_eq_of_not (Bool.of_not_eq_true h1)
              (Bool.of_not_eq_true h3)) h2
        · exact h.1 x h'

theorem btreeOfList_pairwise {α : Type} (l : List (String × α)) :
    List.Pairwise entryLt (btreeOfList l) := by
  have main : ∀ (l : List (String × α)) (m : List (String × α)),
      List.Pairwise entryLt m →
      List.Pairwise entryLt (l.foldl (fun m kv => btreeInsert kv.1 kv.2 m) m) := by
    intro l
    induction l with
    | nil => intro m hm; exact hm
    | cons kv rest ih =>
      intro m hm
      exact ih _ (btreeInsert_pairwise hm)
  exact main l [] List.Pairwise.nil

/-! ### The copy loop -/

theorem copyN_append (pre : List String) :
    ∀ rest, copyN pre.length (pre ++ rest) = some (pre, rest) := by
  induction pre with
  | nil => intro rest; rfl
  | cons x xs ih => intro rest; simp [copyN, ih rest]

/-! ### Tags and anchors of emitted diff operations -/

theorem flushRun_mem {op : DiffOp} {oP nP : Nat} {dels inss : List String}
    (h : op ∈ flushRun oP nP dels inss) :
    op = { tag := if inss = [] then DiffTag.delete
                  else if dels = [] then DiffTag.insert else DiffTag.replace
           oldStart := oP, newStart := nP, oldSeg := dels, newSeg := inss } ∧
    ¬(dels = [] ∧ inss = []) := by
  rw [flushRun] at h
  by_cases h1 : dels = [] ∧ inss = []
  · rw [if_pos h1] at h
    simp at h
  · rw [if_neg h1] at h
    simp only [List.mem_singleton] at h
    exact ⟨h, h1⟩

theorem groupOps_tag_spec : ∀ (s : List Step) (oP nP : Nat)
    (dels inss : List String) (op : DiffOp), op ∈ groupOps oP nP dels inss s →
    op.tag = (if op.newSeg = [] then DiffTag.delete
              else if op.oldSeg = [] then DiffTag.insert else DiffTag.replace) ∧
    ¬(op.oldSeg = [] ∧ op.newSeg = []) := by
  intro s
  induction s with
  | nil =>
    intro oP nP dels inss op h
    obtain ⟨rfl, hne⟩ := flushRun_mem h
    exact ⟨rfl, hne⟩
  | cons st rest ih =>
    intro oP nP dels inss op h
    cases st with
    | keep l =>
      rw [groupOps, List.mem_append] at h
      rcases h with h | h
      · obtain ⟨rfl, hne⟩ := flushRun_mem h
        exact ⟨rfl, hne⟩
      · exact ih _ _ _ _ _ h
    | del l => exact ih _ _ _ _ _ h
    | ins l => exact ih _ _ _ _ _ h

/-! ### String append facts -/

theorem str_append_empty (s : String) : s ++ "" = s :=
  strEq_of_toList_eq (by rw [toList_append]; exact List.append_nil _)

theorem str_append_assoc (a b c : String) : a ++ b ++ c = a ++ (b ++ c) :=
  strEq_of_toList_eq (by simp [toList_append, List.append_assoc])

theorem str_ne_empty_iff (s : String) : s ≠ "" ↔ s.toList ≠ [] := by
  constructor
  · intro h h'
    exact h (strEq_of_toList_eq h')
  · intro h h'
    exact h (h' ▸ rfl)

/-! ### The split pieces and apply's working lines contain no newline -/

theorem splitNl_ne_nil : ∀ cs : List Char, splitNl cs ≠ [] := by
  intro cs
  induction cs with
  | nil => simp [splitNl]
  | cons c rest ih =>
    rw [splitNl]
    by_cases h : c = '\n'
    · simp [h]
    · rw [if_neg h]
      cases hsp : splitNl rest with
      | nil => simp
      | cons p ps => simp

theorem splitNl_no_nl : ∀ (cs : List Char) (p : List Char),
    p ∈ splitNl cs → '\n' ∉ p := by
  intro cs
  induction cs with
  | nil =>
    intro p hp
    simp [splitNl] at hp
    simp [hp]
  | cons c rest ih =>
    intro p hp
    rw [splitNl] at hp
    by_cases h : c = '\n'
    · rw [if_pos h, List.mem_cons] at hp
      rcases hp with hp | hp
      · simp [hp]
      · exact ih p hp
    · rw [if_neg h] at hp
      cases hsp : splitNl rest with
      | nil => exact absurd hsp (splitNl_ne_nil rest)
      | cons q qs =>
        rw [hsp] at hp
        rw [List.mem_cons] at hp
        rcases hp with hp | hp
        · subst hp
          intro hmem
          rw [List.mem_cons] at hmem
          rcases hmem with hmem | hmem
          · exact h hmem.symm
          · exact ih q (hsp ▸ List.mem_cons_self _ _) hmem
        · exact ih p (hsp ▸ List.mem_cons_of_mem _ hp)

theorem dropTrailEmpty_sub : ∀ (ps : List (List Char)) (p : List Char),
    p ∈ dropTrailEmpty ps → p ∈ ps := by
  intro ps
  induction ps with
  | nil => intro p hp; cases hp
  | cons l rest ih =>
    intro p hp
    cases rest with
    | nil =>
      rw [dropTrailEmpty] at hp
      by_cases h : l = []
      · rw [if_pos h] at hp; cases hp
      · rw [if_neg h] at hp; exact hp
    | cons l2 rest2 =>
      rw [dropTrailEmpty, List.mem_cons] at hp
      rcases hp with hp | hp
      · exact hp ▸ List.mem_cons_self _ _
      · exact List.mem_cons_of_mem _ (ih p hp)

theorem stripCr_no_nl {l : List Char} (h : '\n' ∉ l) : '\n' ∉ stripCr l := by
  rw [stripCr]
  by_cases h' : l.getLast? = some '\r'
  · rw [if_pos h']
    intro hmem
    exact h (List.dropLast_subset l hmem)
  · rw [if_neg h']
    exact h

theorem rustLines_no_nl (s : String) : ∀ l ∈ rustLines s, '\n' ∉ l.toList := by
  intro l hl
  rw [rustLines, rustLinesL] at hl
  rw [List.mem_map] at hl
  obtain ⟨p, hp, rfl⟩ := hl
  rw [List.mem_map] at hp
  obtain ⟨q, hq, rfl⟩ := hp
  rw [toList_mk]
  exact stripCr_no_nl (splitNl_no_nl _ _ (dropTrailEmpty_sub _ _ hq))

theorem toActionAt_insert_no_nl (c : String) (n : Nat) :
    ∀ l ∈ (toActionAt c n).insert, '\n' ∉ l.toList := by
  intro l hl
  rw [toActionAt] at hl
  simp only [List.mem_map, List.mem_filter] at hl
  obtain ⟨x, ⟨hx, -⟩, rfl⟩ := hl
  rw [strTail, toList_mk]
  intro hmem
  exact rustLines_no_nl c x hx (List.mem_of_mem_drop hmem)

theorem copyN_split : ∀ (k : Nat) (rest c r : List String),
    copyN k rest = some (c, r) → rest = c ++ r := by
  intro k
  induction k with
  | zero =>
    intro rest c r h
    rw [copyN] at h
    cases h
    rfl
  | succ k ih =>
    intro rest c r h
    cases rest with
    | nil => cases h
    | cons x xs =>
      rw [copyN] at h
      cases hc : copyN k xs with
      | none => rw [hc] at h; cases h
      | some cr =>
        rw [hc] at h
        cases h
        rw [ih xs cr.1 cr.2 (by rw [hc]) ]
        rfl

theorem applyActs_mem : ∀ (acts : List Action) (li : Nat) (rest out : List String),
    applyActs li rest acts = some out →
    ∀ l ∈ out, l ∈ rest ∨ ∃ act ∈ acts, l ∈ act.insert := by
  intro acts
  induction acts with
  | nil =>
    intro li rest out h l hl
    rw [applyActs] at h
    cases h
    exact Or.inl hl
  | cons act acts ih =>
    intro li rest out h l hl
    rw [applyActs] at h
    cases hc : copyN (act.att - li) rest with
    | none => rw [hc, Option.none_bind] at h; cases h
    | some cr =>
      rw [hc, Option.some_bind] at h
      cases ht : applyActs (max li act.att + act.remove.length)
          (cr.2.drop act.remove.length) acts with
      | none => rw [ht, Option.map_none'] at h; cases h
      | some tail =>
        rw [ht, Option.map_some'] at h
        cases h
        rw [List.mem_append, List.mem_append] at hl
        rcases hl with (hl | hl) | hl
        · exact Or.inl (copyN_split _ _ _ _ hc ▸ List.mem_append_left _ hl)
        · exact Or.inr ⟨act, List.mem_cons_self _ _, hl⟩
        · rcases ih _ _ _ ht l hl with h' | ⟨a, ha, hla⟩
          · refine Or.inl (copyN_split _ _ _ _ hc ▸ List.mem_append_right _ ?_)
            exact List.drop_subset _ _ h'
          · exact Or.inr ⟨a, List.mem_cons_of_mem _ ha, hla⟩

theorem mapM_mem {α β : Type} {f : α → Option β} :
    ∀ {l : List α} {res : List β}, l.mapM f = some res →
      ∀ y ∈ res, ∃ x ∈ l, f x = some y := by
  intro l
  induction l with
  | nil =>
    intro res h y hy
    rw [List.mapM_nil] at h
    cases h
    cases hy
  | cons x xs ih =>
    intro res h y hy
    rw [List.mapM_cons] at h
    cases hfx : f x with
    | none => rw [hfx] at h; cases h
    | some b =>
      rw [hfx] at h
      cases hm : xs.mapM f with
      | none => rw [hm] at h; cases h
      | some bs =>
        rw [hm] at h
        cases h
        rw [List.mem_cons] at hy
        rcases hy with hy | hy
        · exact ⟨x, List.mem_cons_self _ _, hy ▸ hfx⟩
        · obtain ⟨x', hx', hfx'⟩ := ih hm y hy
          exact ⟨x', List.mem_cons_of_mem _ hx', hfx'⟩

theorem applySections_no_nl (content : String) (sections : List (String × String))
    (ls : List String) (h : applySections (rustLines content) sections = some ls) :
    ∀ l ∈ ls, '\n' ∉ l.toList := by
  intro l hl
  rw [applySections] at h
  cases ha : actionsOf sections with
  | none => rw [ha] at h; cases h
  | some acts =>
    rw [ha, Option.some_bind] at h
    rcases applyActs_mem acts 0 _ ls h l hl with h' | ⟨act, hact, hla⟩
    · exact rustLines_no_nl content l h'
    · rw [actionsOf] at ha
      obtain ⟨kv, -, hkv⟩ := mapM_mem ha act hact
      cases hp : parseUsize kv.1 with
      | none => rw [hp] at hkv; cases hkv
      | some n =>
        rw [hp, Option.map_some'] at hkv
        cases hkv
        exact toActionAt_insert_no_nl kv.2 n l hla

/-! ### Trailing newlines of the reassembled output -/

theorem joinLines_append_marker : ∀ (ls : List String), ls ≠ [] →
    joinLines (ls ++ [""]) = joinLines ls ++ "\n" := by
  intro ls
  induction ls with
  | nil => intro h; exact absurd rfl h
  | cons l rest ih =>
    intro _
    cases rest with
    | nil =>
      show joinLines [l, ""] = l ++ "\n"
      rw [joinLines, joinLines, str_append_empty]
    | cons l2 rest2 =>
      show joinLines (l :: (l2 :: (rest2 ++ [""]))) = _
      rw [joinLines, ← List.cons_append, ih (by simp), ← str_append_assoc,
        joinLines]

theorem endsNl_append_nl (s : String) : endsNl (s ++ "\n") = true := by
  rw [endsNl, toList_append]
  simp [List.getLast?_append]

theorem joinLines_toList_ne_nil : ∀ (l2 : String) (rest : List String),
    (l2 :: rest).getLast? ≠ some "" → (joinLines (l2 :: rest)).toList ≠ [] := by
  intro l2 rest
  cases rest with
  | nil =>
    intro h
    rw [joinLines]
    rw [List.getLast?_singleton] at h
    rw [← str_ne_empty_iff]
    intro h'
    exact h (by rw [h'])
  | cons l3 t =>
    intro _
    rw [joinLines, toList_append, toList_append]
    simp

theorem endsNl_joinLines : ∀ (ls : List String), ls ≠ [] →
    (∀ l ∈ ls, '\n' ∉ l.toList) → ls.getLast? ≠ some "" →
    endsNl (joinLines ls) = false := by
  intro ls
  induction ls with
  | nil => intro h; exact absurd rfl h
  | cons l rest ih =>
    intro _ hfree hlast
    cases rest with
    | nil =>
      rw [joinLines, endsNl]
      rw [beq_eq_false_iff_ne]
      intro h
      exact hfree l (List.mem_cons_self _ _) (List.mem_of_mem_getLast? h)
    | cons l2 rest2 =>
      have hlast2 : (l2 :: rest2).getLast? ≠ some "" := by
        rwa [List.getLast?_cons_cons] at hlast
      have hne2 : (joinLines (l2 :: rest2)).toList ≠ [] :=
        joinLines_toList_ne_nil l2 rest2 hlast2
      have ihr := ih (by simp)
        (fun x hx => hfree x (List.mem_cons_of_mem _ hx)) hlast2
      rw [joinLines, endsNl, str_append_assoc, toList_append]
      rw [List.getLast?_append]
      rw [endsNl] at ihr
      have : (("\n" ++ joinLines (l2 :: rest2)).toList).getLast? =
          (joinLines (l2 :: rest2)).toList.getLast? := by
        rw [toList_append]
        rw [List.getLast?_append]
        cases hg : (joinLines (l2 :: rest2)).toList.getLast? with
        | none => exact absurd (List.getLast?_eq_none_iff.mp hg) hne2
        | some c => rfl
      rw [this]
      cases hg : (joinLines (l2 :: rest2)).toList.getLast? with
      | none => exact absurd (List.getLast?_eq_none_iff.mp hg) hne2
      | some c =>
        rw [hg] at ihr
        simpa using ihr

/-! ### Structure of the edit script and its grouped operations -/

theorem stepsOld_map_ins (n : List String) : stepsOld (n.map Step.ins) = [] := by
  induction n with
  | nil => rfl
  | cons b bs ih => simpa [stepsOld] using ih

theorem stepsNew_map_ins (n : List String) : stepsNew (n.map Step.ins) = n := by
  induction n with
  | nil => rfl
  | cons b bs ih => simpa [stepsNew] using ih

theorem stepsOld_map_del (o : List String) : stepsOld (o.map Step.del) = o := by
  induction o with
  | nil => rfl
  | cons a as ih => simpa [stepsOld] using ih

theorem stepsNew_map_del (o : List String) : stepsNew (o.map Step.del) = [] := by
  induction o with
  | nil => rfl
  | cons a as ih => simpa [stepsNew] using ih

theorem scriptFuel_steps : ∀ (f : Nat) (o n : List String),
    o.length + n.length ≤ f →
    stepsOld (scriptFuel f o n) = o ∧ stepsNew (scriptFuel f o n) = n := by
  intro f
  induction f with
  | zero =>
    intro o n h
    cases o with
    | nil =>
      rw [show scriptFuel 0 [] n = n.map Step.ins from rfl]
      exact ⟨stepsOld_map_ins n, stepsNew_map_ins n⟩
    | cons a as =>
      cases n with
      | nil =>
        rw [show scriptFuel 0 (a :: as) [] = (a :: as).map Step.del from rfl]
        exact ⟨stepsOld_map_del _, stepsNew_map_del _⟩
      | cons b bs => simp at h
  | succ f ih =>
    intro o n h
    cases o with
    | nil =>
      rw [show scriptFuel (f + 1) [] n = n.map Step.ins from rfl]
      exact ⟨stepsOld_map_ins n, stepsNew_map_ins n⟩
    | cons a as =>
      cases n with
      | nil =>
        rw [show scriptFuel (f + 1) (a :: as) [] = (a :: as).map Step.del from rfl]
        exact ⟨stepsOld_map_del _, stepsNew_map_del _⟩
      | cons b bs =>
        rw [scriptFuel]
        by_cases hab : a = b
        · rw [if_pos hab]
          obtain ⟨h1, h2⟩ := ih as bs (by
            simp only [List.length_cons] at h; omega)
          exact ⟨by rw [stepsOld, h1], by rw [stepsNew, h2, hab]⟩
        · rw [if_neg hab]
          by_cases hc : scriptCost (scriptFuel f (a :: as) bs) <
              scriptCost (scriptFuel f as (b :: bs))
          · rw [if_pos hc]
            obtain ⟨h1, h2⟩ := ih (a :: as) bs (by
              simp only [List.length_cons] at h ⊢; omega)
            exact ⟨by rw [stepsOld, h1], by rw [stepsNew, h2]⟩
          · rw [if_neg hc]
            obtain ⟨h1, h2⟩ := ih as (b :: bs) (by
              simp only [List.length_cons] at h ⊢; omega)
            exact ⟨by rw [stepsOld, h1], by rw [stepsNew, h2]⟩

theorem flushRun_of_ne {oP nP : Nat} {dels inss : List String}
    (h : ¬(dels = [] ∧ inss = [])) :
    flushRun oP nP dels inss =
      [{ tag := if inss = [] then DiffTag.delete
                else if dels = [] then DiffTag.insert else DiffTag.replace
         oldStart := oP, newStart := nP, oldSeg := dels, newSeg := inss }] := by
  rw [flushRun, if_neg h]

theorem groupOps_ne_nil : ∀ (s : List Step) (oP nP : Nat)
    (dels inss : List String), ¬(dels = [] ∧ inss = []) →
    groupOps oP nP dels inss s ≠ [] := by
  intro s
  induction s with
  | nil =>
    intro oP nP dels inss h
    rw [groupOps, flushRun_of_ne h]
    simp
  | cons st rest ih =>
    intro oP nP dels inss h
    cases st with
    | keep l =>
      rw [groupOps, flushRun_of_ne h]
      simp
    | del l =>
      rw [groupOps]
      exact ih _ _ _ _ (by simp)
    | ins l =>
      rw [groupOps]
      exact ih _ _ _ _ (by simp)

theorem groupOps_nil_eq : ∀ (s : List Step) (oP nP : Nat),
    groupOps oP nP [] [] s = [] → stepsOld s = stepsNew s := by
  intro s
  induction s with
  | nil => intro oP nP _; rfl
  | cons st rest ih =>
    intro oP nP h
    cases st with
    | keep l =>
      rw [groupOps, show flushRun oP nP [] [] = [] from rfl,
        List.nil_append] at h
      rw [stepsOld, stepsNew, ih _ _ h]
    | del l => exact absurd h (groupOps_ne_nil rest oP nP [l] [] (by simp))
    | ins l => exact absurd h (groupOps_ne_nil rest oP nP [] [l] (by simp))

theorem groupOps_single_pending : ∀ (s : List Step) (oP nP : Nat)
    (dels inss : List String) (op : DiffOp), ¬(dels = [] ∧ inss = []) →
    groupOps oP nP dels inss s = [op] →
    op.oldStart = oP ∧ op.newStart = nP ∧
    ∃ dl il k2, op.oldSeg = dels ++ dl ∧ op.newSeg = inss ++ il ∧
      stepsOld s = dl ++ k2 ∧ stepsNew s = il ++ k2 := by
  intro s
  induction s with
  | nil =>
    intro oP nP dels inss op hne h
    rw [groupOps, flushRun_of_ne hne] at h
    rw [List.cons.injEq] at h
    rw [← h.1]
    exact ⟨rfl, rfl, [], [], [], by simp, by simp, rfl, rfl⟩
  | cons st rest ih =>
    intro oP nP dels inss op hne h
    cases st with
    | keep l =>
      rw [groupOps, flushRun_of_ne hne, List.cons_append, List.nil_append,
        List.cons.injEq] at h
      have hrest := groupOps_nil_eq rest _ _ h.2
      rw [← h.1]
      refine ⟨rfl, rfl, [], [], l :: stepsOld rest, by simp, by simp, rfl, ?_⟩
      rw [stepsNew, ← hrest]
      rfl
    | del l =>
      rw [groupOps] at h
      obtain ⟨h1, h2, dl, il, k2, h3, h4, h5, h6⟩ :=
        ih _ _ _ _ _ (by simp) h
      refine ⟨h1, h2, l :: dl, il, k2, ?_, h4, ?_, h6⟩
      · rw [h3, List.append_assoc]; rfl
      · rw [stepsOld, h5]; rfl
    | ins l =>
      rw [groupOps] at h
      obtain ⟨h1, h2, dl, il, k2, h3, h4, h5, h6⟩ :=
        ih _ _ _ _ _ (by simp) h
      refine ⟨h1, h2, dl, l :: il, k2, h3, ?_, h5, ?_⟩
      · rw [h4, List.append_assoc]; rfl
      · rw [stepsNew, h6]; rfl

theorem groupOps_single : ∀ (s : List Step) (oP nP : Nat) (op : DiffOp),
    groupOps oP nP [] [] s = [op] →
    ∃ pre suf : List String,
      op.oldStart = oP + pre.length ∧ op.newStart = nP + pre.length ∧
      stepsOld s = pre ++ op.oldSeg ++ suf ∧
      stepsNew s = pre ++ op.newSeg ++ suf := by
  intro s
  induction s with
  | nil =>
    intro oP nP op h
    rw [groupOps, show flushRun oP nP [] [] = [] from rfl] at h
    cases h
  | cons st rest ih =>
    intro oP nP op h
    cases st with
    | keep l =>
      rw [groupOps, show flushRun oP nP [] [] = [] from rfl,
        List.nil_append] at h
      obtain ⟨pre, suf, h1, h2, h3, h4⟩ := ih _ _ _ h
      refine ⟨l :: pre, suf, ?_, ?_, ?_, ?_⟩
      · rw [h1]; simp; omega
      · rw [h2]; simp; omega
      · rw [stepsOld, h3]; rfl
      · rw [stepsNew, h4]; rfl
    | del l =>
      rw [groupOps] at h
      obtain ⟨h1, h2, dl, il, k2, h3, h4, h5, h6⟩ :=
        groupOps_single_pending rest _ _ _ _ _ (by simp) h
      refine ⟨[], k2, by simpa using h1, by simpa using h2, ?_, ?_⟩
      · rw [stepsOld, h5, h3]
        simp
      · rw [stepsNew, h6, h4]
        simp
    | ins l =>
      rw [groupOps] at h
      obtain ⟨h1, h2, dl, il, k2, h3, h4, h5, h6⟩ :=
        groupOps_single_pending rest _ _ _ _ _ (by simp) h
      refine ⟨[], k2, by simpa using h1, by simpa using h2, ?_, ?_⟩
      · rw [stepsOld, h5, h3]
        simp
      · rw [stepsNew, h6, h4]
        simp

/-! ### Reading back section payloads -/

theorem splitNl_no_sep : ∀ cs : List Char, '\n' ∉ cs → splitNl cs = [cs] := by
  intro cs
  induction cs with
  | nil => intro _; rfl
  | cons c rest ih =>
    intro h
    rw [List.mem_cons] at h
    push_neg at h
    rw [splitNl, if_neg (fun he => h.1 he.symm), ih h.2]

theorem splitNl_append_sep : ∀ (p cs : List Char), '\n' ∉ p →
    splitNl (p ++ '\n' :: cs) = p :: splitNl cs := by
  intro p
  induction p with
  | nil => intro cs _; rw [List.nil_append, splitNl, if_pos rfl]
  | cons c p' ih =>
    intro cs h
    rw [List.mem_cons] at h
    push_neg at h
    rw [List.cons_append, splitNl, if_neg (fun he => h.1 he.symm),
      ih cs h.2]

theorem stripCr_id {l : List Char} (h : l.getLast? ≠ some '\r') :
    stripCr l = l := by
  rw [stripCr, if_neg h]

theorem getLast?_cons_ne {a : Char} {l : List Char} (ha : a ≠ '\r')
    (hl : l.getLast? ≠ some '\r') : (a :: l).getLast? ≠ some '\r' := by
  cases l with
  | nil =>
    rw [List.getLast?_singleton]
    intro h
    rw [Option.some.injEq] at h
    exact ha h
  | cons b t => rwa [List.getLast?_cons_cons]

theorem rustLines_cons_of (p T : String) (h1 : '\n' ∉ p.toList)
    (h2 : p.toList.getLast? ≠ some '\r') :
    rustLines ((p ++ "\n") ++ T) = p :: rustLines T := by
  have ht : ((p ++ "\n") ++ T).toList = p.toList ++ ('\n' :: T.toList) := by
    rw [toList_append, toList_append, List.append_assoc]
    rfl
  rw [rustLines, rustLines, rustLinesL, rustLinesL, ht,
    splitNl_append_sep _ _ h1]
  cases hS : splitNl T.toList with
  | nil => exact absurd hS (splitNl_ne_nil _)
  | cons q qs =>
    rw [dropTrailEmpty, List.map_cons, List.map_cons, stripCr_id h2,
      mk_toList]

theorem rustLines_empty : rustLines "" = [] := rfl

theorem rustTermLines : ∀ ps : List String,
    (∀ p ∈ ps, '\n' ∉ p.toList ∧ p.toList.getLast? ≠ some '\r') →
    rustLines (strConcat (ps.map fun p => p ++ "\n")) = ps := by
  intro ps
  induction ps with
  | nil => intro _; exact rustLines_empty
  | cons p rest ih =>
    intro h
    rw [List.map_cons, strConcat,
      rustLines_cons_of p _ (h p (List.mem_cons_self _ _)).1
        (h p (List.mem_cons_self _ _)).2,
      ih fun q hq => h q (List.mem_cons_of_mem _ hq)]

theorem rustLines_single (p : String) (h1 : '\n' ∉ p.toList)
    (h2 : p.toList ≠ []) (h3 : p.toList.getLast? ≠ some '\r') :
    rustLines p = [p] := by
  rw [rustLines, rustLinesL, splitNl_no_sep _ h1, dropTrailEmpty,
    if_neg h2, List.map_cons, List.map_nil, stripCr_id h3, List.map_cons,
    List.map_nil, mk_toList]

theorem rustLines_joinLines : ∀ ps : List String,
    (∀ p ∈ ps, p.toList ≠ [] ∧ '\n' ∉ p.toList ∧
      p.toList.getLast? ≠ some '\r') →
    rustLines (joinLines ps) = ps := by
  intro ps
  induction ps with
  | nil => intro _; exact rustLines_empty
  | cons p rest ih =>
    intro h
    cases rest with
    | nil =>
      obtain ⟨h1, h2, h3⟩ := h p (List.mem_cons_self _ _)
      rw [joinLines]
      exact rustLines_single p h2 h1 h3
    | cons q rest2 =>
      obtain ⟨h1, h2, h3⟩ := h p (List.mem_cons_self _ _)
      rw [joinLines, rustLines_cons_of p _ h2 h3,
        ih fun x hx => h x (List.mem_cons_of_mem _ hx)]

/-! ### The prefix classification of `to_action_at` -/

theorem strStarts_dash_dash (l : String) : strStarts '-' ("-" ++ l) = true := by
  rw [strStarts, toList_append]
  rfl

theorem strStarts_dash_plus (l : String) : strStarts '-' ("+" ++ l) = false := by
  rw [strStarts, toList_append]
  rfl

theorem strStarts_plus_plus (l : String) : strStarts '+' ("+" ++ l) = true := by
  rw [strStarts, toList_append]
  rfl

theorem strStarts_plus_dash (l : String) : strStarts '+' ("-" ++ l) = false := by
  rw [strStarts, toList_append]
  rfl

theorem strTail_dash (l : String) : strTail ("-" ++ l) = l := by
  rw [strTail, toList_append]
  exact mk_toList l

theorem strTail_plus (l : String) : strTail ("+" ++ l) = l := by
  rw [strTail, toList_append]
  exact mk_toList l

theorem toActionAt_of_rustLines {content : String} {R I : List String} {n : Nat}
    (h : rustLines content =
      R.map (fun l => "-" ++ l) ++ I.map (fun l => "+" ++ l)) :
    toActionAt content n = ⟨n, R, I⟩ := by
  rw [toActionAt, h]
  have fR : (R.map fun l => "-" ++ l).filter (strStarts '-') =
      R.map fun l => "-" ++ l := by
    rw [List.filter_eq_self]
    intro a ha
    rw [List.mem_map] at ha
    obtain ⟨l, -, rfl⟩ := ha
    exact strStarts_dash_dash l
  have fI : (I.map fun l => "+" ++ l).filter (strStarts '-') = [] := by
    rw [List.filter_eq_nil_iff]
    intro a ha
    rw [List.mem_map] at ha
    obtain ⟨l, -, rfl⟩ := ha
    simp [strStarts_dash_plus l]
  have gR : (R.map fun l => "-" ++ l).filter (strStarts '+') = [] := by
    rw [List.filter_eq_nil_iff]
    intro a ha
    rw [List.mem_map] at ha
    obtain ⟨l, -, rfl⟩ := ha
    simp [strStarts_plus_dash l]
  have gI : (I.map fun l => "+" ++ l).filter (strStarts '+') =
      I.map fun l => "+" ++ l := by
    rw [List.filter_eq_self]
    intro a ha
    rw [List.mem_map] at ha
    obtain ⟨l, -, rfl⟩ := ha
    exact strStarts_plus_plus l
  have mR : (R.map fun l => "-" ++ l).map strTail = R := by
    rw [List.map_map]
    rw [show strTail ∘ (fun l => "-" ++ l) = fun l => strTail ("-" ++ l)
      from rfl]
    rw [List.map_congr_left fun l _ => strTail_dash l]
    exact List.map_id' R
  have mI : (I.map fun l => "+" ++ l).map strTail = I := by
    rw [List.map_map]
    rw [show strTail ∘ (fun l => "+" ++ l) = fun l => strTail ("+" ++ l)
      from rfl]
    rw [List.map_congr_left fun l _ => strTail_plus l]
    exact List.map_id' I
  rw [List.filter_append, List.filter_append, fR, fI, gR, gI,
    List.append_nil, List.nil_append, mR, mI]

/-! ### Singleton patches through the apply and reverse pipelines -/

theorem actionsOf_nil : actionsOf [] = some [] := rfl

theorem actionsOf_single (n : Nat) (c : String) :
    actionsOf [(natReprS n, c)] = some [toActionAt c n] := by
  rw [actionsOf]
  rw [show btreeOfList [(natReprS n, c)] = [(natReprS n, c)] from rfl]
  rw [List.mapM_cons, List.mapM_nil, parseUsize_natReprS n]
  rfl

theorem reverseSections_nil : reverseSections [] = some [] := rfl

theorem reverseSections_single (n : Nat) (c : String) :
    reverseSections [(natReprS n, c)] = some [(natReprS n,
      joinLines ((toActionAt c n).insert.map (fun l => "-" ++ l) ++
                 (toActionAt c n).remove.map (fun l => "+" ++ l)))] := by
  rw [reverseSections]
  rw [show btreeOfList [(natReprS n, c)] = [(natReprS n, c)] from rfl]
  rw [List.foldlM_cons, reverseSection, parseUsize_natReprS n]
  rfl

theorem applyActs_single (pre R I suf : List String) :
    applyActs 0 (pre ++ R ++ suf) [⟨pre.length, R, I⟩] =
      some (pre ++ I ++ suf) := by
  rw [applyActs]
  rw [show (⟨pre.length, R, I⟩ : Action).att - 0 = pre.length from rfl]
  rw [List.append_assoc, copyN_append pre (R ++ suf), Option.some_bind]
  show Option.map _ (applyActs _ ((R ++ suf).drop R.length) []) = _
  rw [List.drop_left, applyActs, Option.map_some']

/-! ### The snapshot traversal -/

theorem except_bind_ok {α β : Type} (a : α) (f : α → Except Unit β) :
    (Except.ok a : Except Unit α).bind f = f a := rfl

theorem except_bind_error {α β : Type} (e : Unit) (f : α → Except Unit β) :
    (Except.error e : Except Unit α).bind f = Except.error e := rfl

theorem except_map_ok {α β : Type} (a : α) (f : α → β) :
    (Except.ok a : Except Unit α).map f = Except.ok (f a) := rfl

theorem except_map_error {α β : Type} (e : Unit) (f : α → β) :
    (Except.error e : Except Unit α).map f = (Except.error e : Except Unit β) := rfl

theorem pathStarts_append (p : List String) :
    ∀ (xs ys : List String), pathStarts (p ++ xs) (p ++ ys) = pathStarts xs ys := by
  induction p with
  | nil => intro xs ys; rfl
  | cons a p' ih =>
    intro xs ys
    rw [List.cons_append, List.cons_append, pathStarts]
    simp [ih]

theorem pathStarts_head_ne {nm nm' : String} (h : nm ≠ nm') (t t' : List String) :
    pathStarts (nm :: t) (nm' :: t') = false := by
  rw [pathStarts]
  simp [h]

theorem ignored_false_all {stack : List (List (List String))} {p : List String}
    (h : ignored stack p = false) :
    ∀ lvl ∈ stack, ∀ q ∈ lvl, pathStarts p q = false := by
  intro lvl hl q hq
  cases hps : pathStarts p q with
  | false => rfl
  | true =>
    exfalso
    have : ignored stack p = true := by
      rw [ignored, List.any_eq_true]
      refine ⟨lvl, hl, ?_⟩
      rw [List.any_eq_true]
      exact ⟨q, hq, hps⟩
    rw [h] at this
    cases this

theorem manifestAt_head : ∀ {f : Fs} {relA : List String} {s : String},
    ManifestAt f relA s →
    ∃ nm relA', relA = nm :: relA' ∧ nm ∈ chainNames f := by
  intro f relA s h
  induction h with
  | head name s children rest =>
    exact ⟨name, [], rfl, List.mem_cons_self _ _⟩
  | inside name m rest _ _ =>
    exact ⟨name, _, rfl, List.mem_cons_self _ _⟩
  | skipFile name c _ ih =>
    obtain ⟨nm, relA', he, hm⟩ := ih
    exact ⟨nm, relA', he, List.mem_cons_of_mem _ hm⟩
  | skipDir name m children _ ih =>
    obtain ⟨nm, relA', he, hm⟩ := ih
    exact ⟨nm, relA', he, List.mem_cons_of_mem _ hm⟩

theorem processFs_copies : ∀ (e : Fs) (hash : String → String)
    (parse : String → Option (List (List String)))
    (path : List String) (stack : List (List (List String)))
    (res : List (List String × String) × List (List String)),
    processFs hash parse path stack e = Except.ok res →
    res.2 = res.1.map Prod.fst := by
  intro e
  induction e with
  | nil =>
    intro hash parse path stack res h
    cases h
    rfl
  | fileE name c rest ih =>
    intro hash parse path stack res h
    rw [processFs] at h
    cases hr : processFs hash parse path stack rest with
    | error e => rw [hr, except_map_error] at h; cases h
    | ok resr =>
      rw [hr, except_map_ok] at h
      cases h
      by_cases hig : ignored stack (path ++ [name]) = true
      · rw [if_pos hig]
        exact ih _ _ _ _ _ hr
      · rw [if_neg hig]
        show (path ++ [name]) :: resr.2 =
          ((path ++ [name], hash c) :: resr.1).map Prod.fst
        rw [List.map_cons, ih _ _ _ _ _ hr]
  | dirE name m children rest ihc ihr =>
    intro hash parse path stack res h
    rw [processFs] at h
    by_cases hig : ignored stack (path ++ [name]) = true
    · rw [if_pos hig] at h
      exact ihr _ _ _ _ _ h
    · rw [if_neg hig] at h
      cases hp : readPats parse (path ++ [name]) m with
      | error e => rw [hp, except_bind_error] at h; cases h
      | ok pats =>
        rw [hp, except_bind_ok] at h
        cases hc : processFs hash parse (path ++ [name]) (stack ++ [pats])
            children with
        | error e => rw [hc, except_bind_error] at h; cases h
        | ok resc =>
          rw [hc, except_bind_ok] at h
          cases hr : processFs hash parse path stack rest with
          | error e => rw [hr, except_map_error] at h; cases h
          | ok resr =>
            rw [hr, except_map_ok] at h
            cases h
            show resc.2 ++ resr.2 = (resc.1 ++ resr.1).map Prod.fst
            rw [List.map_append, ihc _ _ _ _ _ hc, ihr _ _ _ _ _ hr]

theorem processFs_stack_excl : ∀ (e : Fs) (hash : String → String)
    (parse : String → Option (List (List String)))
    (path : List String) (stack : List (List (List String)))
    (res : List (List String × String) × List (List String)),
    processFs hash parse path stack e = Except.ok res →
    ∀ fp ∈ res.1.map Prod.fst, ∀ lvl ∈ stack, ∀ q ∈ lvl,
      pathStarts fp q = false := by
  intro e
  induction e with
  | nil =>
    intro hash parse path stack res h fp hfp
    cases h
    cases hfp
  | fileE name c rest ih =>
    intro hash parse path stack res h fp hfp lvl hl q hq
    rw [processFs] at h
    cases hr : processFs hash parse path stack rest with
    | error e => rw [hr, except_map_error] at h; cases h
    | ok resr =>
      rw [hr, except_map_ok] at h
      cases h
      by_cases hig : ignored stack (path ++ [name]) = true
      · rw [if_pos hig] at hfp
        exact ih _ _ _ _ _ hr fp hfp lvl hl q hq
      · rw [if_neg hig] at hfp
        rw [show ((path ++ [name], hash c) :: resr.1).map Prod.fst =
          (path ++ [name]) :: resr.1.map Prod.fst from List.map_cons _ _ _,
          List.mem_cons] at hfp
        rcases hfp with hfp | hfp
        · subst hfp
          exact ignored_false_all (Bool.of_not_eq_true hig) lvl hl q hq
        · exact ih _ _ _ _ _ hr fp hfp lvl hl q hq
  | dirE name m children rest ihc ihr =>
    intro hash parse path stack res h fp hfp lvl hl q hq
    rw [processFs] at h
    by_cases hig : ignored stack (path ++ [name]) = true
    · rw [if_pos hig] at h
      exact ihr _ _ _ _ _ h fp hfp lvl hl q hq
    · rw [if_neg hig] at h
      cases hp : readPats parse (path ++ [name]) m with
      | error e => rw [hp, except_bind_error] at h; cases h
      | ok pats =>
        rw [hp, except_bind_ok] at h
        cases hc : processFs hash parse (path ++ [name]) (stack ++ [pats])
            children with
        | error e => rw [hc, except_bind_error] at h; cases h
        | ok resc =>
          rw [hc, except_bind_ok] at h
          cases hr : processFs hash parse path stack rest with
          | error e => rw [hr, except_map_error] at h; cases h
          | ok resr =>
            rw [hr, except_map_ok] at h
            cases h
            rw [show ((resc.1 ++ resr.1, resc.2 ++ resr.2) :
                List (List String × String) × List (List String)).1 =
              resc.1 ++ resr.1 from rfl, List.map_append,
              List.mem_append] at hfp
            rcases hfp with hfp | hfp
            · exact ihc _ _ _ _ _ hc fp hfp lvl
                (List.mem_append_left _ hl) q hq
            · exact ihr _ _ _ _ _ hr fp hfp lvl hl q hq

theorem processFs_under_path : ∀ (e : Fs) (hash : String → String)
    (parse : String → Option (List (List String)))
    (path : List String) (stack : List (List (List String)))
    (res : List (List String × String) × List (List String)),
    processFs hash parse path stack e = Except.ok res →
    ∀ fp ∈ res.1.map Prod.fst,
      ∃ nm t, fp = path ++ nm :: t ∧ nm ∈ chainNames e := by
  intro e
  induction e with
  | nil =>
    intro hash parse path stack res h fp hfp
    cases h
    cases hfp
  | fileE name c rest ih =>
    intro hash parse path stack res h fp hfp
    rw [processFs] at h
    cases hr : processFs hash parse path stack rest with
    | error e => rw [hr, except_map_error] at h; cases h
    | ok resr =>
      rw [hr, except_map_ok] at h
      cases h
      by_cases hig : ignored stack (path ++ [name]) = true
      · rw [if_pos hig] at hfp
        obtain ⟨nm, t, he, hm⟩ := ih _ _ _ _ _ hr fp hfp
        exact ⟨nm, t, he, List.mem_cons_of_mem _ hm⟩
      · rw [if_neg hig] at hfp
        rw [show ((path ++ [name], hash c) :: resr.1).map Prod.fst =
          (path ++ [name]) :: resr.1.map Prod.fst from List.map_cons _ _ _,
          List.mem_cons] at hfp
        rcases hfp with hfp | hfp
        · exact ⟨name, [], hfp, List.mem_cons_self _ _⟩
        · obtain ⟨nm, t, he, hm⟩ := ih _ _ _ _ _ hr fp hfp
          exact ⟨nm, t, he, List.mem_cons_of_mem _ hm⟩
  | dirE name m children rest ihc ihr =>
    intro hash parse path stack res h fp hfp
    rw [processFs] at h
    by_cases hig : ignored stack (path ++ [name]) = true
    · rw [if_pos hig] at h
      obtain ⟨nm, t, he, hm⟩ := ihr _ _ _ _ _ h fp hfp
      exact ⟨nm, t, he, List.mem_cons_of_mem _ hm⟩
    · rw [if_neg hig] at h
      cases hp : readPats parse (path ++ [name]) m with
      | error e => rw [hp, except_bind_error] at h; cases h
      | ok pats =>
        rw [hp, except_bind_ok] at h
        cases hc : processFs hash parse (path ++ [name]) (stack ++ [pats])
            children with
        | error e => rw [hc, except_bind_error] at h; cases h
        | ok resc =>
          rw [hc, except_bind_ok] at h
          cases hr : processFs hash parse path stack rest with
          | error e => rw [hr, except_map_error] at h; cases h
          | ok resr =>
            rw [hr, except_map_ok] at h
            cases h
            rw [show ((resc.1 ++ resr.1, resc.2 ++ resr.2) :
                List (List String × String) × List (List String)).1 =
              resc.1 ++ resr.1 from rfl, List.map_append,
              List.mem_append] at hfp
            rcases hfp with hfp | hfp
            · obtain ⟨nm, t, he, -⟩ := ihc _ _ _ _ _ hc fp hfp
              refine ⟨name, nm :: t, ?_, List.mem_cons_self _ _⟩
              rw [he, List.append_assoc]
              rfl
            · obtain ⟨nm, t, he, hm⟩ := ihr _ _ _ _ _ hr fp hfp
              exact ⟨nm, t, he, List.mem_cons_of_mem _ hm⟩

theorem not_mem_of_contains_false {l : List String} {a : String}
    (h : l.contains a = false) : a ∉ l := by
  intro hm
  rw [List.contains_eq_any_beq, List.any_eq_false] at h
  exact absurd (by simp : (a == a) = true) (h a hm)

theorem wfFs_file {name c : String} {rest : Fs}
    (h : wfFs (.fileE name c rest) = true) :
    name ∉ chainNames rest ∧ wfFs rest = true := by
  rw [wfFs] at h
  simp only [Bool.and_eq_true, Bool.not_eq_true'] at h
  exact ⟨not_mem_of_contains_false h.1, h.2⟩

theorem wfFs_dir {name : String} {m : Option String} {children rest : Fs}
    (h : wfFs (.dirE name m children rest) = true) :
    name ∉ chainNames rest ∧ wfFs children = true ∧ wfFs rest = true := by
  rw [wfFs] at h
  simp only [Bool.and_eq_true, Bool.not_eq_true'] at h
  exact ⟨not_mem_of_contains_false h.1.1, h.1.2, h.2⟩

theorem pathStarts_sep {path fp : List String} {nmf nmp : String}
    {t q : List String} (hfp : fp = path ++ nmf :: t) (hne : nmf ≠ nmp) :
    pathStarts fp (path ++ nmp :: q) = false := by
  rw [hfp, pathStarts_append, pathStarts_head_ne hne]

theorem relA_pattern_eq {path relA q : List String} {nm : String}
    {relA' : List String} (he : relA = nm :: relA') :
    path ++ relA ++ q = path ++ nm :: (relA' ++ q) := by
  rw [he, List.append_assoc]
  rfl

theorem processFs_manifest_excl : ∀ (e : Fs) (hash : String → String)
    (parse : String → Option (List (List String)))
    (path : List String) (stack : List (List (List String)))
    (res : List (List String × String) × List (List String)),
    wfFs e = true →
    processFs hash parse path stack e = Except.ok res →
    ∀ (relA : List String) (s : String) (pats : List (List String))
      (q : List String),
      ManifestAt e relA s → parse s = some pats → q ∈ pats →
      ∀ fp ∈ res.1.map Prod.fst,
        pathStarts fp (path ++ relA ++ q) = false := by
  intro e
  induction e with
  | nil =>
    intro hash parse path stack res _ h relA s pats q hman
    cases hman
  | fileE name c rest ih =>
    intro hash parse path stack res hwf h relA s pats q hman hparse hq fp hfp
    obtain ⟨hn, hwfr⟩ := wfFs_file hwf
    rw [processFs] at h
    cases hr : processFs hash parse path stack rest with
    | error e => rw [hr, except_map_error] at h; cases h
    | ok resr =>
      rw [hr, except_map_ok] at h
      cases h
      cases hman with
      | skipFile _ _ hman' =>
        obtain ⟨nm, relA', he, hmem⟩ := manifestAt_head hman'
        by_cases hig : ignored stack (path ++ [name]) = true
        · rw [if_pos hig] at hfp
          exact ih _ _ _ _ _ hwfr hr relA s pats q hman' hparse hq fp hfp
        · rw [if_neg hig] at hfp
          rw [show ((path ++ [name], hash c) :: resr.1).map Prod.fst =
            (path ++ [name]) :: resr.1.map Prod.fst from List.map_cons _ _ _,
            List.mem_cons] at hfp
          rcases hfp with hfp | hfp
          · rw [relA_pattern_eq he]
            refine pathStarts_sep (t := []) hfp ?_
            intro hcon
            exact hn (hcon ▸ hmem)
          · exact ih _ _ _ _ _ hwfr hr relA s pats q hman' hparse hq fp hfp
  | dirE name m children rest ihc ihr =>
    intro hash parse path stack res hwf h relA s pats q hman hparse hq fp hfp
    obtain ⟨hn, hwfc, hwfr⟩ := wfFs_dir hwf
    rw [processFs] at h
    by_cases hig : ignored stack (path ++ [name]) = true
    · rw [if_pos hig] at h
      cases hman with
      | head _ _ _ _ =>
        obtain ⟨nmf, t, hfpe, hmemf⟩ := processFs_under_path _ _ _ _ _ _ h fp hfp
        rw [relA_pattern_eq (rfl : [name] = name :: ([] : List String)),
          List.nil_append]
        exact pathStarts_sep hfpe fun hcon => hn (hcon ▸ hmemf)
      | inside _ _ _ hman' =>
        rename_i relA1
        obtain ⟨nmf, t, hfpe, hmemf⟩ := processFs_under_path _ _ _ _ _ _ h fp hfp
        rw [relA_pattern_eq (rfl : name :: relA1 = name :: relA1)]
        exact pathStarts_sep hfpe fun hcon => hn (hcon ▸ hmemf)
      | skipDir _ _ _ hman' =>
        exact ihr _ _ _ _ _ hwfr h relA s pats q hman' hparse hq fp hfp
    · rw [if_neg hig] at h
      cases hp : readPats parse (path ++ [name]) m with
      | error e => rw [hp, except_bind_error] at h; cases h
      | ok pats0 =>
        rw [hp, except_bind_ok] at h
        cases hc : processFs hash parse (path ++ [name]) (stack ++ [pats0])
            children with
        | error e => rw [hc, except_bind_error] at h; cases h
        | ok resc =>
          rw [hc, except_bind_ok] at h
          cases hr : processFs hash parse path stack rest with
          | error e => rw [hr, except_map_error] at h; cases h
          | ok resr =>
            rw [hr, except_map_ok] at h
            cases h
            rw [show ((resc.1 ++ resr.1, resc.2 ++ resr.2) :
                List (List String × String) × List (List String)).1 =
              resc.1 ++ resr.1 from rfl, List.map_append,
              List.mem_append] at hfp
            cases hman with
            | head _ _ _ _ =>
              have hp0 : pats0 = pats.map fun q' => (path ++ [name]) ++ q' := by
                rw [readPats, hparse] at hp
                exact (Except.ok.injEq _ _).mp hp.symm
              rcases hfp with hfp | hfp
              · have := processFs_stack_excl _ _ _ _ _ _ hc fp hfp pats0
                  (List.mem_append_right _ (List.mem_singleton_self _))
                  ((path ++ [name]) ++ q)
                  (by rw [hp0]; exact List.mem_map_of_mem _ hq)
                rw [show path ++ [name] ++ q = (path ++ [name]) ++ q from rfl]
                exact this
              · obtain ⟨nmf, t, hfpe, hmemf⟩ :=
                  processFs_under_path _ _ _ _ _ _ hr fp hfp
                rw [relA_pattern_eq (rfl : [name] = name :: ([] : List String)),
                  List.nil_append]
                exact pathStarts_sep hfpe fun hcon => hn (hcon ▸ hmemf)
            | inside _ _ _ hman' =>
              rename_i relA1
              rcases hfp with hfp | hfp
              · have := ihc _ _ _ _ _ hwfc hc _ s pats q hman' hparse hq fp hfp
                rw [relA_pattern_eq (rfl : name :: relA1 = name :: relA1),
                  show path ++ name :: (relA1 ++ q) =
                    (path ++ [name]) ++ (relA1 ++ q) from by
                      rw [List.append_assoc]; rfl,
                  ← List.append_assoc]
                exact this
              · obtain ⟨nmf, t, hfpe, hmemf⟩ :=
                  processFs_under_path _ _ _ _ _ _ hr fp hfp
                rw [relA_pattern_eq (rfl : name :: relA1 = name :: relA1)]
                exact pathStarts_sep hfpe fun hcon => hn (hcon ▸ hmemf)
            | skipDir _ _ _ hman' =>
              obtain ⟨nm, relA', he, hmem⟩ := manifestAt_head hman'
              rcases hfp with hfp | hfp
              · obtain ⟨nmf, t, hfpe, -⟩ :=
                  processFs_under_path _ _ _ _ _ _ hc fp hfp
                have hfpe' : fp = path ++ name :: (nmf :: t) := by
                  rw [hfpe, List.append_assoc]
                  rfl
                rw [relA_pattern_eq he]
                exact pathStarts_sep hfpe' fun hcon => hn (hcon ▸ hmem)
              · exact ihr _ _ _ _ _ hwfr hr relA s pats q hman' hparse hq fp hfp

/-! ### Claim theorems -/

theorem nl_not_mem_cons {c : Char} {l : String} (hc : '\n' ≠ c)
    (h : '\n' ∉ l.toList) : '\n' ∉ c :: l.toList := by
  rw [List.mem_cons]
  push_neg
  exact ⟨hc, h⟩

/-- C1, counterexample.  Stored content `"a\nb\nc\n"` and working content
`"a\nc\nz\n"` diff into a delete of `"b"` keyed `"1"` and an insert of
`"z"` keyed `"2"` — the insert anchor is in *new*-content coordinates,
while `apply`'s cursor counts consumed *old*-content lines, so applying
the patch back to the stored content yields `"a\nz\nc\n"`, not the working
content: the round-trip law fails. -/
theorem C1_counterexample :
    diffContent "a\nb\nc\n" "a\nc\nz\n" = [("1", "-b\n"), ("2", "+z\n")] ∧
    applyContent "a\nb\nc\n" (diffContent "a\nb\nc\n" "a\nc\nz\n") =
      some "a\nz\nc\n" ∧
    ("a\nz\nc\n" : String) ≠ "a\nc\nz\n" := by
  refine ⟨by decide, by decide, by decide⟩

/-- C1, amended.  The round-trip law holds at the line level when the diff
of the two contents consists of at most one non-equal operation (a single
contiguous edit): applying the produced sections to the old lines yields
the new lines, and applying the reversed sections to the new lines yields
the old lines.  (With two or more operations the insert anchors live in
new-content coordinates while `apply` consumes old-content lines, and the
law fails — see the counterexample.)  The line lists are assumed free of
embedded newlines and of trailing carriage returns, as the lines of real
file contents are. -/
theorem C1_round_trip_single (la lb : List String)
    (hfree : ∀ l ∈ la ++ lb, '\n' ∉ l.toList ∧ l.toList.getLast? ≠ some '\r')
    (hops : (diffOps la lb).length ≤ 1) :
    applySections la (diffLines la lb) = some lb ∧
    (reverseSections (diffLines la lb)).bind (applySections lb) = some la := by
  have hsteps := scriptFuel_steps (la.length + lb.length) la lb (le_refl _)
  cases hd : diffOps la lb with
  | nil =>
    have heq : la = lb := by
      have h1 := groupOps_nil_eq (script la lb) 0 0 hd
      exact (hsteps.1.symm.trans h1).trans hsteps.2
    have hdl : diffLines la lb = [] := by rw [diffLines, hd]; rfl
    constructor
    · rw [hdl, applySections, actionsOf_nil, Option.some_bind, applyActs, heq]
    · rw [hdl, reverseSections_nil, Option.some_bind, applySections,
        actionsOf_nil, Option.some_bind, applyActs, heq]
  | cons op ops' =>
    have hops' : ops' = [] := by
      rw [hd] at hops
      simp only [List.length_cons] at hops
      exact List.length_eq_zero.mp (by omega)
    subst hops'
    obtain ⟨pre, suf, h1, h2, h3, h4⟩ := groupOps_single (script la lb) 0 0 op hd
    have ho : op.oldStart = pre.length := by omega
    have hn : op.newStart = pre.length := by omega
    have hla : la = pre ++ op.oldSeg ++ suf := hsteps.1.symm.trans h3
    have hlb : lb = pre ++ op.newSeg ++ suf := hsteps.2.symm.trans h4
    obtain ⟨htag, -⟩ := groupOps_tag_spec (script la lb) 0 0 [] [] op
      (by rw [show groupOps 0 0 [] [] (script la lb) = diffOps la lb from rfl,
        hd]; exact List.mem_singleton_self op)
    have hsec : sectionEntry op = some (natReprS pre.length, payload op) := by
      rw [sectionEntry]
      cases ht : op.tag with
      | equal =>
        exfalso
        rw [ht] at htag
        split_ifs at htag
      | delete => rw [ho]
      | insert => rw [hn]
      | replace => rw [ho]
    have hdl : diffLines la lb = [(natReprS pre.length, payload op)] := by
      rw [diffLines, hd, List.foldl_cons, List.foldl_nil, hsec]
      rfl
    have hRfree : ∀ l ∈ op.oldSeg,
        '\n' ∉ l.toList ∧ l.toList.getLast? ≠ some '\r' := by
      intro l hl
      refine hfree l (List.mem_append_left lb ?_)
      rw [hla]
      exact List.mem_append_left _ (List.mem_append_right _ hl)
    have hIfree : ∀ l ∈ op.newSeg,
        '\n' ∉ l.toList ∧ l.toList.getLast? ≠ some '\r' := by
      intro l hl
      refine hfree l (List.mem_append_right la ?_)
      rw [hlb]
      exact List.mem_append_left _ (List.mem_append_right _ hl)
    have hdashList : ∀ l : String, ("-" ++ l).toList = '-' :: l.toList := by
      intro l; rw [toList_append]; rfl
    have hplusList : ∀ l : String, ("+" ++ l).toList = '+' :: l.toList := by
      intro l; rw [toList_append]; rfl
    have hpay : rustLines (payload op) =
        op.oldSeg.map (fun l => "-" ++ l) ++
        op.newSeg.map (fun l => "+" ++ l) := by
      have hps : op.oldSeg.map (fun l => "-" ++ l ++ "\n") ++
          op.newSeg.map (fun l => "+" ++ l ++ "\n") =
          (op.oldSeg.map (fun l => "-" ++ l) ++
           op.newSeg.map (fun l => "+" ++ l)).map (fun p => p ++ "\n") := by
        rw [List.map_append, List.map_map, List.map_map]
        rfl
      rw [payload, hps]
      refine rustTermLines _ ?_
      intro p hp
      rw [List.mem_append] at hp
      rcases hp with hp | hp <;> rw [List.mem_map] at hp
      · obtain ⟨l, hl, rfl⟩ := hp
        obtain ⟨hl1, hl2⟩ := hRfree l hl
        rw [hdashList]
        exact ⟨nl_not_mem_cons (by decide) hl1,
          getLast?_cons_ne (by decide) hl2⟩
      · obtain ⟨l, hl, rfl⟩ := hp
        obtain ⟨hl1, hl2⟩ := hIfree l hl
        rw [hplusList]
        exact ⟨nl_not_mem_cons (by decide) hl1,
          getLast?_cons_ne (by decide) hl2⟩
    have hact : toActionAt (payload op) pre.length =
        ⟨pre.length, op.oldSeg, op.newSeg⟩ := toActionAt_of_rustLines hpay
    constructor
    · rw [applySections, hdl, actionsOf_single, Option.some_bind, hact,
        hla, hlb]
      exact applyActs_single pre op.oldSeg op.newSeg suf
    · rw [hdl, reverseSections_single, Option.some_bind, hact]
      show applySections lb [(natReprS pre.length,
        joinLines (op.newSeg.map (fun l => "-" ++ l) ++
                   op.oldSeg.map (fun l => "+" ++ l)))] = some la
      have hrev : rustLines (joinLines (op.newSeg.map (fun l => "-" ++ l) ++
          op.oldSeg.map (fun l => "+" ++ l))) =
          op.newSeg.map (fun l => "-" ++ l) ++
          op.oldSeg.map (fun l => "+" ++ l) := by
        refine rustLines_joinLines _ ?_
        intro p hp
        rw [List.mem_append] at hp
        rcases hp with hp | hp <;> rw [List.mem_map] at hp
        · obtain ⟨l, hl, rfl⟩ := hp
          obtain ⟨hl1, hl2⟩ := hIfree l hl
          rw [hdashList]
          exact ⟨by simp, nl_not_mem_cons (by decide) hl1,
            getLast?_cons_ne (by decide) hl2⟩
        · obtain ⟨l, hl, rfl⟩ := hp
          obtain ⟨hl1, hl2⟩ := hRfree l hl
          rw [hplusList]
          exact ⟨by simp, nl_not_mem_cons (by decide) hl1,
            getLast?_cons_ne (by decide) hl2⟩
      have hact2 : toActionAt (joinLines (op.newSeg.map (fun l => "-" ++ l) ++
          op.oldSeg.map (fun l => "+" ++ l))) pre.length =
          ⟨pre.length, op.newSeg, op.oldSeg⟩ := toActionAt_of_rustLines hrev
      rw [applySections, actionsOf_single, Option.some_bind, hact2, hla, hlb]
      exact applyActs_single pre op.newSeg op.oldSeg suf

/-- C1, witness: the single-replace diff of lines `["a","b","c"]` against
`["a","x","c"]` round-trips in both directions. -/
theorem C1_witness :
    ((∀ l ∈ (["a", "b", "c"] ++ ["a", "x", "c"] : List String),
        '\n' ∉ l.toList ∧ l.toList.getLast? ≠ some '\r') ∧
      (diffOps ["a", "b", "c"] ["a", "x", "c"]).length ≤ 1) ∧
    applySections ["a", "b", "c"]
        (diffLines ["a", "b", "c"] ["a", "x", "c"]) = some ["a", "x", "c"] ∧
    (reverseSections (diffLines ["a", "b", "c"] ["a", "x", "c"])).bind
        (applySections ["a", "x", "c"]) = some ["a", "b", "c"] :=
  ⟨⟨by decide, by decide⟩,
   (C1_round_trip_single ["a", "b", "c"] ["a", "x", "c"] (by decide)
      (by decide)).1,
   (C1_round_trip_single ["a", "b", "c"] ["a", "x", "c"] (by decide)
      (by decide)).2⟩

/-- C2 helper: the cast is the identity below `2 ^ 31`. -/
theorem asI32_of_lt {n : Nat} (h : n < 2 ^ 31) : asI32 n = (n : Int) := by
  have h1 : n % 2 ^ 32 = n := Nat.mod_eq_of_lt (by omega)
  rw [asI32, h1, if_pos h]

/-- C2 helper: the cast-faithful action loop agrees with the idealized one
whenever every anchor is below `2 ^ 31` — the region every real patch
inhabits, which grounds the idealized model used by the other claims. -/
theorem applyActsI32_agree : ∀ (acts : List Action) (li : Nat)
    (rest : List String), (∀ a ∈ acts, a.att < 2 ^ 31) →
    applyActsI32 (li : Int) rest acts = applyActs li rest acts := by
  intro acts
  induction acts with
  | nil => intro li rest _; rfl
  | cons act acts ih =>
    intro li rest hb
    rw [applyActsI32, applyActs]
    rw [asI32_of_lt (hb act (List.mem_cons_self _ _))]
    have hcount : ((act.att : Int) - (li : Int)).toNat = act.att - li := by
      omega
    rw [hcount]
    have harg : max (li : Int) (act.att : Int) + (act.remove.length : Int) =
        ((max li act.att + act.remove.length : Nat) : Int) := by
      push_cast
      ring
    congr 1
    funext cr
    rw [harg, ih (max li act.att + act.remove.length)
      (cr.2.drop act.remove.length)
      (fun a ha => hb a (List.mem_cons_of_mem _ ha))]

/-- C3, counterexample.  The claim says the actions execute in ascending
*numeric* anchor order, e.g. a section anchored at 9 before one anchored at
10.  But the sections live in a `BTreeMap<String, _>` keyed by the
*stringified* anchor, and `"10" < "9"` lexicographically: for the patch
file entry with sections at keys `"9"` and `"10"`, `apply` builds its
action list with anchor 10 first. -/
theorem C3_counterexample :
    (actionsOf [("9", "+a\n"), ("10", "+b\n")]).map (List.map Action.att) =
      some [10, 9] := by
  decide

/-- C3, amended.  `apply` processes the sections of a patch-file entry in
ascending *lexicographic* order of their stringified anchor keys (the
`BTreeMap<String, _>` iteration order), which coincides with numeric order
only when the digit strings compare the same way (e.g. equal-length
anchors); the model's deserialized section list is strictly sorted by that
string order. -/
theorem C3_lex_anchor_order (sections : List (String × String)) :
    List.Pairwise entryLt (btreeOfList sections) :=
  btreeOfList_pairwise sections

/-- C4, counterexample.  The claim says insert *and replace* operations are
anchored in new-content coordinates.  Diffing stored `["a","b","x"]`
against working `["b","y"]` produces a delete of `"a"` and then a replace
`"x" -> "y"` whose `new_range().start` is 1 but whose `old_range().start`
is 2 — and the code keys the replace section at `"2"`, the old-content
coordinate (src/src/main.rs line 173). -/
theorem C4_counterexample :
    diffOps ["a", "b", "x"] ["b", "y"] =
      [⟨DiffTag.delete, 0, 0, ["a"], []⟩, ⟨DiffTag.replace, 2, 1, ["x"], ["y"]⟩] ∧
    diffLines ["a", "b", "x"] ["b", "y"] = [("0", "-a\n"), ("2", "-x\n+y\n")] := by
  constructor <;> decide

/-- C4, amended.  Every non-equal diff operation yields one section whose
anchor is the operation's start in *old*-content coordinates for delete and
replace operations and in *new*-content coordinates for insert operations
(src/src/main.rs lines 153-179); no equal operation is emitted, and the
tags match the shape of the operation's line ranges. -/
theorem C4_anchor_spaces (o n : List String) (op : DiffOp)
    (h : op ∈ diffOps o n) :
    sectionEntry op = some
      ((match op.tag with
        | DiffTag.insert => natReprS op.newStart
        | _ => natReprS op.oldStart), payload op) ∧
    (op.tag = DiffTag.delete → op.newSeg = [] ∧ op.oldSeg ≠ []) ∧
    (op.tag = DiffTag.insert → op.oldSeg = [] ∧ op.newSeg ≠ []) ∧
    (op.tag = DiffTag.replace → op.oldSeg ≠ [] ∧ op.newSeg ≠ []) := by
  obtain ⟨htag, hne⟩ := groupOps_tag_spec _ _ _ _ _ op h
  by_cases h1 : op.newSeg = []
  · rw [if_pos h1] at htag
    refine ⟨by rw [sectionEntry, htag], fun _ => ⟨h1, fun h2 => hne ⟨h2, h1⟩⟩,
      fun hi => ?_, fun hr => ?_⟩
    · rw [htag] at hi; cases hi
    · rw [htag] at hr; cases hr
  · rw [if_neg h1] at htag
    by_cases h2 : op.oldSeg = []
    · rw [if_pos h2] at htag
      refine ⟨by rw [sectionEntry, htag], fun hd => ?_, fun _ => ⟨h2, h1⟩,
        fun hr => ?_⟩
      · rw [htag] at hd; cases hd
      · rw [htag] at hr; cases hr
    · rw [if_neg h2] at htag
      refine ⟨by rw [sectionEntry, htag], fun hd => ?_, fun hi => ?_,
        fun _ => ⟨h2, h1⟩⟩
      · rw [htag] at hd; cases hd
      · rw [htag] at hi; cases hi

/-- C4, witness: the single replace operation of diffing `["a"]` against
`["b"]` is keyed at its old-content start. -/
theorem C4_witness :
    (⟨DiffTag.replace, 0, 0, ["a"], ["b"]⟩ : DiffOp) ∈ diffOps ["a"] ["b"] ∧
    sectionEntry ⟨DiffTag.replace, 0, 0, ["a"], ["b"]⟩ =
      some (natReprS 0, payload ⟨DiffTag.replace, 0, 0, ["a"], ["b"]⟩) :=
  ⟨by decide, (C4_anchor_spaces ["a"] ["b"] _ (by decide)).1⟩

/-- C5, counterexample.  The claim says both `apply` and `reverse` honor the
`"-"` standard-input sentinel; but `reverse` passes its argument straight
to `fs::read_to_string` (src/src/main.rs line 239), so `"-"` names a file
there, unlike in `apply`. -/
theorem C5_counterexample :
    reversePatchSource "-" = PatchSource.file "-" ∧
    reversePatchSource "-" ≠ applyPatchSource "-" := by
  decide

/-- C5, amended.  Only `apply` maps the sentinel `"-"` to standard input
(src/src/main.rs lines 188-196); `reverse` always opens its argument as a
named file, so the sentinel makes it try to read a file literally named
`"-"`. -/
theorem C5_sources :
    applyPatchSource "-" = PatchSource.stdin ∧
    (∀ f : String, f ≠ "-" → applyPatchSource f = PatchSource.file f) ∧
    (∀ f : String, reversePatchSource f = PatchSource.file f) :=
  ⟨rfl, fun f hf => by simp [applyPatchSource, hf], fun _ => rfl⟩

/-- C5, witness: a concrete non-sentinel argument opens a file in `apply`,
and the sentinel itself still opens a file in `reverse`. -/
theorem C5_witness :
    ("p.toml" : String) ≠ "-" ∧
    applyPatchSource "p.toml" = PatchSource.file "p.toml" ∧
    reversePatchSource "-" = PatchSource.file "-" :=
  ⟨by decide, C5_sources.2.1 "p.toml" (by decide), C5_sources.2.2 "-"⟩

/-- C7, confirmed.  Ignore composition: during the snapshot traversal, a
file whose path extends (component-wise, as `Path::starts_with` checks) a
pattern from the ignore manifest of *any* ancestor directory — the root's
own manifest or a directory at any depth — is excluded from both the index
(`files`) and the content store (the copied paths), regardless of the
manifests in between: every directory pushes its own joined patterns on the
ignore stack before recursing, and each entry is checked against the whole
stack (src/src/main.rs lines 68-104).  Sibling names are assumed distinct
on every level, as a real directory listing guarantees. -/
theorem C7_ignore_composition (hash : String → String)
    (parse : String → Option (List (List String)))
    (rootM : Option String) (entries : Fs)
    (res : List (List String × String) × List (List String))
    (hwf : wfFs entries = true)
    (hok : processRoot hash parse rootM entries = Except.ok res) :
    (∀ (relA : List String) (s : String) (pats : List (List String))
        (q fp : List String),
      ManifestAt entries relA s → parse s = some pats → q ∈ pats →
      pathStarts fp (relA ++ q) = true →
      fp ∉ res.1.map Prod.fst ∧ fp ∉ res.2) ∧
    (∀ (s : String) (pats : List (List String)) (q fp : List String),
      rootM = some s → parse s = some pats → q ∈ pats →
      pathStarts fp q = true →
      fp ∉ res.1.map Prod.fst ∧ fp ∉ res.2) := by
  rw [processRoot] at hok
  cases hrp : readPats parse [] rootM with
  | error e => rw [hrp, except_bind_error] at hok; cases hok
  | ok pats0 =>
    rw [hrp, except_bind_ok] at hok
    have hcopies := processFs_copies _ _ _ _ _ _ hok
    constructor
    · intro relA s pats q fp hman hparse hq hps
      have hkeys : fp ∉ res.1.map Prod.fst := by
        intro hfp
        have hexc := processFs_manifest_excl entries _ _ [] [pats0] res hwf hok
          relA s pats q hman hparse hq fp hfp
        rw [List.nil_append] at hexc
        rw [hexc] at hps
        cases hps
      exact ⟨hkeys, by rw [hcopies]; exact hkeys⟩
    · intro s pats q fp hroot hparse hq hps
      subst hroot
      have hp0 : pats0 = pats.map fun q' => [] ++ q' := by
        rw [readPats, hparse] at hrp
        exact (Except.ok.injEq _ _).mp hrp.symm
      have hkeys : fp ∉ res.1.map Prod.fst := by
        intro hfp
        have hexc := processFs_stack_excl _ _ _ _ _ _ hok fp hfp pats0
          (List.mem_singleton_self _) ([] ++ q)
          (by rw [hp0]; exact List.mem_map_of_mem _ hq)
        rw [List.nil_append] at hexc
        rw [hexc] at hps
        cases hps
      exact ⟨hkeys, by rw [hcopies]; exact hkeys⟩

/-- C7, witness: a tree with directory `d` (whose manifest ignores `x`)
containing file `x`, and a sibling file `y`.  The snapshot indexes and
copies only `y`; the ignored `d/x` appears in neither the index nor the
store. -/
theorem C7_witness :
    (wfFs (.dirE "d" (some "IG") (.fileE "x" "data" .nil)
        (.fileE "y" "other" .nil)) = true ∧
      processRoot (fun _ => "H")
        (fun s => if s = "IG" then some [["x"]] else none) none
        (.dirE "d" (some "IG") (.fileE "x" "data" .nil)
          (.fileE "y" "other" .nil)) =
        Except.ok ([(["y"], "H")], [["y"]]) ∧
      pathStarts ["d", "x"] (["d"] ++ ["x"]) = true) ∧
    (["d", "x"] : List String) ∉
      ([(["y"], "H")] : List (List String × String)).map Prod.fst ∧
    (["d", "x"] : List String) ∉ ([["y"]] : List (List String)) :=
  ⟨⟨by decide, rfl, by decide⟩,
   (C7_ignore_composition (fun _ => "H")
      (fun s => if s = "IG" then some [["x"]] else none) none
      (.dirE "d" (some "IG") (.fileE "x" "data" .nil)
        (.fileE "y" "other" .nil))
      ([(["y"], "H")], [["y"]]) (by decide) rfl).1
    ["d"] "IG" [["x"]] ["x"] ["d", "x"]
    (ManifestAt.head "d" "IG" _ _) (by decide) (by decide) (by decide)⟩

/-- C10, confirmed.  Any failure to read a directory's `.qopfile` — absence
as much as e.g. a permission error, both landing in the `Err(_)` arm at
src/src/main.rs line 77 — is treated as an empty exclusion list for that
directory and traversal continues identically; only a manifest that is read
successfully but fails to parse aborts the whole snapshot (the `?` at line
74). -/
theorem C10_manifest_errors (hash : String → String)
    (parse : String → Option (List (List String)))
    (path : List String) (stack : List (List (List String)))
    (name : String) (children rest : Fs) :
    (∀ s : String, parse s = some [] →
      processFs hash parse path stack (.dirE name none children rest) =
        processFs hash parse path stack (.dirE name (some s) children rest)) ∧
    (∀ s : String, parse s = none →
      ignored stack (path ++ [name]) = false →
      processFs hash parse path stack (.dirE name (some s) children rest) =
        Except.error ()) := by
  constructor
  · intro s hs
    simp only [processFs, readPats, hs, List.map_nil]
  · intro s hs hig
    rw [processFs, if_neg (fun hcon : ignored stack (path ++ [name]) = true =>
      by rw [hig] at hcon; cases hcon)]
    rw [readPats, hs]
    rfl

/-- C10, witness: with a parser accepting only `"E"` (as an empty ignore
list), an unreadable manifest behaves exactly like the parsed-empty one,
and an unparsable manifest `"X"` aborts the traversal. -/
theorem C10_witness :
    ((fun s => if s = "E" then some ([] : List (List String)) else none) "E" =
        some [] ∧
      processFs (fun _ : String => "H")
        (fun s => if s = "E" then some ([] : List (List String)) else none)
        [] [] (.dirE "d" none .nil .nil) =
      processFs (fun _ : String => "H")
        (fun s => if s = "E" then some ([] : List (List String)) else none)
        [] [] (.dirE "d" (some "E") .nil .nil)) ∧
    ((fun s => if s = "E" then some ([] : List (List String)) else none) "X" =
        none ∧
      ignored [] (([] : List String) ++ ["d"]) = false ∧
      processFs (fun _ : String => "H")
        (fun s => if s = "E" then some ([] : List (List String)) else none)
        [] [] (.dirE "d" (some "X") .nil .nil) = Except.error ()) :=
  ⟨⟨by decide,
    (C10_manifest_errors (fun _ => "H")
      (fun s => if s = "E" then some [] else none) [] [] "d" .nil .nil).1
      "E" (by decide)⟩,
   ⟨by decide, by decide,
    (C10_manifest_errors (fun _ => "H")
      (fun s => if s = "E" then some [] else none) [] [] "d" .nil .nil).2
      "X" (by decide) (by decide)⟩⟩

/-- C8, counterexample.  The claim says the applied content ends with a
newline iff the original did, for every applicable patch.  But applying the
(diff-producible) patch that removes the single empty line of the original
content `"\n"` writes `""`: the original ends with a newline and the output
does not. -/
theorem C8_counterexample :
    applyContent "\n" [("0", "-\n")] = some "" ∧
    endsNl "\n" = true ∧ endsNl "" = false := by
  decide

/-- C8, amended.  The applied content ends with a newline iff the original
did, *provided* the patched line list is nonempty and does not itself end
with an empty line (src/src/main.rs lines 227-232: the code appends one
empty line iff the original ended with a newline and then joins with
`"\n"`, so an empty output or a trailing empty patched line breaks the
equivalence). -/
theorem C8_trailing_newline (content : String) (sections : List (String × String))
    (ls : List String) (happ : applySections (rustLines content) sections = some ls)
    (hne : ls ≠ []) (hlast : ls.getLast? ≠ some "") :
    applyContent content sections = some (finalize content ls) ∧
    endsNl (finalize content ls) = endsNl content := by
  have hfree := applySections_no_nl content sections ls happ
  constructor
  · rw [applyContent, happ, Option.map_some']
  · rw [finalize]
    cases hln : endsNl content with
    | true =>
      show endsNl (joinLines (ls ++ [""])) = true
      rw [joinLines_append_marker ls hne, endsNl_append_nl]
    | false =>
      show endsNl (joinLines (ls ++ [])) = false
      rw [List.append_nil]
      exact endsNl_joinLines ls hne hfree hlast

/-- C8, witness: replacing the line of `"a\n"` by `"b"` gives output lines
`["b"]`, and the written content `"b\n"` ends with a newline exactly as the
original did. -/
theorem C8_witness :
    (applySections (rustLines "a\n") [("0", "-a\n+b\n")] = some ["b"] ∧
      (["b"] : List String) ≠ [] ∧ (["b"] : List String).getLast? ≠ some "") ∧
    applyContent "a\n" [("0", "-a\n+b\n")] = some (finalize "a\n" ["b"]) ∧
    endsNl (finalize "a\n" ["b"]) = endsNl "a\n" :=
  ⟨⟨by decide, by decide, by decide⟩,
   C8_trailing_newline "a\n" [("0", "-a\n+b\n")] ["b"] (by decide) (by decide)
     (by decide)⟩

/-- C9, counterexample.  The claim says that for some input patch the
reversed section's anchor is numerically different from the original's;
but `reverse` re-keys every section at `act.at.to_string()` where `act.at`
is the *parsed original key* (src/src/main.rs lines 247, 256), so the
numeric anchor is always preserved. -/
theorem C9_counterexample :
    ¬ ∃ (k c : String) (n m : Nat) (r : String × String),
      parseUsize k = some n ∧ reverseSection k c = some r ∧
      parseUsize r.1 = some m ∧ m ≠ n := by
  rintro ⟨k, c, n, m, r, hk, hr, hm, hne⟩
  rw [reverseSection, hk, Option.map_some'] at hr
  cases hr
  rw [parseUsize_natReprS] at hm
  cases hm
  exact hne rfl

/-- C9, amended.  `reverse` swaps each section's removal and insertion line
sets (re-prefixing `+` and `-`) and re-keys the section at the string of
the parsed original anchor: the key string may change (leading zeros or a
`+` sign are normalized away) but its numeric value never does. -/
theorem C9_reverse_rekey (k c : String) (n : Nat) (h : parseUsize k = some n) :
    reverseSection k c = some (natReprS n,
      joinLines ((toActionAt c n).insert.map (fun l => "-" ++ l) ++
                 (toActionAt c n).remove.map (fun l => "+" ++ l))) ∧
    parseUsize (natReprS n) = some n :=
  ⟨by rw [reverseSection, h]; rfl, parseUsize_natReprS n⟩

/-- C6 helper: an association list with distinct keys determines values. -/
theorem assoc_unique : ∀ {l : List (String × String)},
    (l.map Prod.fst).Nodup → ∀ {a b b'}, (a, b) ∈ l → (a, b') ∈ l → b = b' := by
  intro l
  induction l with
  | nil => intro _ a b b' h; cases h
  | cons kv rest ih =>
    intro hnd a b b' h1 h2
    rw [List.map_cons, List.nodup_cons] at hnd
    rw [List.mem_cons] at h1 h2
    rcases h1 with h1 | h1 <;> rcases h2 with h2 | h2
    · rw [← h1] at h2; exact congrArg Prod.snd h2.symm
    · exfalso; exact hnd.1 (h1 ▸ (List.mem_map_of_mem Prod.fst h2 : _))
    · exfalso; exact hnd.1 (h2 ▸ (List.mem_map_of_mem Prod.fst h1 : _))
    · exact ih hnd.2 h1 h2

/-- C6 helper: keys of `filesEntryInsert` come from the old map or are the
inserted path. -/
theorem filesEntryInsert_keys :
    ∀ (files : List (String × List (String × String))) (path : String)
      (secs : List (String × String)) (x : String),
      x ∈ (filesEntryInsert files path secs).map Prod.fst →
      x ∈ files.map Prod.fst ∨ x = path := by
  intro files
  induction files with
  | nil =>
    intro path secs x h
    simp [filesEntryInsert] at h
    exact Or.inr h
  | cons kv rest ih =>
    intro path secs x h
    rw [filesEntryInsert] at h
    by_cases heq : kv.1 = path
    · rw [if_pos heq] at h
      simp only [List.map_cons, List.mem_cons] at h ⊢
      rcases h with h | h
      · exact Or.inl (Or.inl h)
      · exact Or.inl (Or.inr h)
    · rw [if_neg heq] at h
      simp only [List.map_cons, List.mem_cons] at h ⊢
      rcases h with h | h
      · exact Or.inl (Or.inl h)
      · rcases ih path secs x h with h' | h'
        · exact Or.inl (Or.inr h')
        · exact Or.inr h'

/-- C6 helper: the fold of `diffStep` never mentions a path whose working
content hashes to its stored hash. -/
theorem diffIndex_fold_excl (hash : String → String) (wc store : String → String)
    (rev : Bool) (path : String) :
    ∀ (idx : List (String × String))
      (acc : List (String × List (String × String)) × List String),
      (∀ pe ∈ idx, pe.1 = path → hash (wc pe.1) = pe.2) →
      path ∉ acc.1.map Prod.fst → path ∉ acc.2 →
      path ∉ (idx.foldl (diffStep hash wc store rev) acc).1.map Prod.fst ∧
        path ∉ (idx.foldl (diffStep hash wc store rev) acc).2 := by
  intro idx
  induction idx with
  | nil => intro acc _ h1 h2; exact ⟨h1, h2⟩
  | cons pe rest ih =>
    intro acc hall h1 h2
    rw [List.foldl_cons]
    by_cases heq : hash (wc pe.1) = pe.2
    · rw [show diffStep hash wc store rev acc pe = acc from if_pos heq]
      exact ih acc (fun q hq => hall q (List.mem_cons_of_mem _ hq)) h1 h2
    · have hne : pe.1 ≠ path := fun hp =>
        heq (hall pe (List.mem_cons_self _ _) hp)
      rw [show diffStep hash wc store rev acc pe =
        (if (if rev then diffContent (wc pe.1) (store pe.1)
             else diffContent (store pe.1) (wc pe.1)).isEmpty then acc.1
         else filesEntryInsert acc.1 pe.1
           (if rev then diffContent (wc pe.1) (store pe.1)
            else diffContent (store pe.1) (wc pe.1)), acc.2 ++ [pe.1])
        from if_neg heq]
      refine ih _ (fun q hq => hall q (List.mem_cons_of_mem _ hq)) ?_ ?_
      · by_cases hempty : (if rev then diffContent (wc pe.1) (store pe.1)
            else diffContent (store pe.1) (wc pe.1)).isEmpty
        · rw [if_pos hempty]; exact h1
        · rw [if_neg hempty]
          intro hmem
          rcases filesEntryInsert_keys _ _ _ _ hmem with h' | h'
          · exact h1 h'
          · exact hne h'.symm
      · intro hmem
        rw [List.mem_append, List.mem_singleton] at hmem
        rcases hmem with h' | h'
        · exact h2 h'
        · exact hne h'.symm

/-- C6, confirmed.  If the working-tree content of an indexed file hashes to
the stored hash, `diff` skips it before ever reading the stored copy
(src/src/main.rs lines 126-132): the file is entirely absent from the
produced patch (not present with zero sections — an entry is only created
when a section is inserted) and its path never appears among the store
reads. -/
theorem C6_noop_identical (hash : String → String) (wc store : String → String)
    (rev : Bool) (idx : List (String × String)) (path hsh : String)
    (hnd : (idx.map Prod.fst).Nodup) (hmem : (path, hsh) ∈ idx)
    (hh : hash (wc path) = hsh) :
    path ∉ (diffIndex hash wc store rev idx).1.map Prod.fst ∧
    path ∉ (diffIndex hash wc store rev idx).2 := by
  refine diffIndex_fold_excl hash wc store rev path idx ([], []) ?_ (by simp) (by simp)
  intro pe hpe hp
  have : pe = (path, pe.2) := by rw [← hp]
  rw [hp]
  rw [this] at hpe
  rw [assoc_unique hnd hpe hmem]
  exact hh

/-- C6, witness: a one-file index whose working content hashes identically
produces an empty patch and reads nothing from the store. -/
theorem C6_witness :
    ((([("f.txt", "H")] : List (String × String)).map Prod.fst).Nodup ∧
      (("f.txt", "H") : String × String) ∈ [("f.txt", "H")] ∧
      (fun _ : String => "H") ((fun _ : String => "one\n") "f.txt") = "H") ∧
    "f.txt" ∉ (diffIndex (fun _ => "H") (fun _ => "one\n") (fun _ => "one\n")
        false [("f.txt", "H")]).1.map Prod.fst :=
  ⟨⟨by decide, by decide, rfl⟩,
   (C6_noop_identical (fun _ => "H") (fun _ => "one\n") (fun _ => "one\n")
      false [("f.txt", "H")] "f.txt" "H" (by decide) (by decide) rfl).1⟩

/-- C9, witness: reversing a section keyed `"007"` re-keys it at `"7"` —
a different string, the same number. -/
theorem C9_witness :
    parseUsize "007" = some 7 ∧
    reverseSection "007" "-a\n+b\n" = some (natReprS 7,
      joinLines ((toActionAt "-a\n+b\n" 7).insert.map (fun l => "-" ++ l) ++
                 (toActionAt "-a\n+b\n" 7).remove.map (fun l => "+" ++ l))) ∧
    natReprS 7 = "7" :=
  ⟨by decide, (C9_reverse_rekey "007" "-a\n+b\n" 7 (by decide)).1, by decide⟩

end Qop
